import Mathlib

/-!
Verification development for the noodlification core of libmata
(`src/nfa/noodlify.cc`).

The pure control flow of `noodlify` and the two `noodlify_for_equation`
overloads is translated directly from the source.  External NFA-library
primitives that are not part of the source file (trim, reachable-state
sets, segmentation) are modelled from the specification, with doc
comments marking them as such.
-/

set_option maxHeartbeats 1000000

namespace Mata

/-- A transition of an NFA: source state, symbol, target state
(`Mata::Nfa::Trans`). -/
structure Trans where
  src : Nat
  symb : Nat
  tgt : Nat
deriving DecidableEq, Repr

instance : Inhabited Trans := ⟨⟨0, 0, 0⟩⟩

/-- Injective encoding of a transition as a natural number; only used to
give `Trans` a linear order so that finite sets of transitions can be
listed deterministically. -/
def transCode (t : Trans) : Nat := Nat.pair t.src (Nat.pair t.symb t.tgt)

theorem transCode_injective : Function.Injective transCode := by
  intro a b h
  unfold transCode at h
  have h1 := (Nat.pair_eq_pair).mp h
  have h2 := (Nat.pair_eq_pair).mp h1.2
  cases a; cases b
  simp_all

instance : LinearOrder Trans := LinearOrder.lift' transCode transCode_injective

/-- An NFA as in the data model: a set of states, initial states, final
states and transitions. -/
structure Nfa where
  states : Finset Nat
  initialstates : Finset Nat
  finalstates : Finset Nat
  trans : Finset Trans
deriving DecidableEq

instance : Inhabited Nfa := ⟨⟨∅, ∅, ∅, ∅⟩⟩

theorem Nfa.eq_of_parts {A B : Nfa} (h1 : A.states = B.states)
    (h2 : A.initialstates = B.initialstates) (h3 : A.finalstates = B.finalstates)
    (h4 : A.trans = B.trans) : A = B := by
  cases A; cases B; simp_all

/-- `get_num_of_states` of the external NFA library. -/
def get_num_of_states (A : Nfa) : Nat := A.states.card

/-! ### Reachability as a finite fixpoint -/

/-- One step of forward closure: add the targets of all transitions in
`T` whose source is already in `S`. -/
def stepT (T : Finset Trans) (S : Finset Nat) : Finset Nat :=
  S ∪ (T.filter (fun t => t.src ∈ S)).image Trans.tgt

/-- Enough iterations of `stepT` to reach the fixpoint. -/
def reachBound (T : Finset Trans) (S0 : Finset Nat) : Nat :=
  (S0 ∪ T.image Trans.tgt).card + 1

/-- The set of states reachable from `S0` along transitions in `T`. -/
def reachFrom (T : Finset Trans) (S0 : Finset Nat) : Finset Nat :=
  (stepT T)^[reachBound T S0] S0

theorem subset_stepT (T : Finset Trans) (S : Finset Nat) : S ⊆ stepT T S :=
  Finset.subset_union_left

theorem stepT_subset_univ (T : Finset Trans) {S U : Finset Nat} (hS : S ⊆ U)
    (hT : T.image Trans.tgt ⊆ U) : stepT T S ⊆ U := by
  apply Finset.union_subset hS
  exact (Finset.image_subset_image (Finset.filter_subset _ _)).trans hT

theorem iterate_stepT_subset_univ (T : Finset Trans) (S0 : Finset Nat) :
    ∀ n, (stepT T)^[n] S0 ⊆ S0 ∪ T.image Trans.tgt := by
  intro n
  induction n with
  | zero => exact Finset.subset_union_left
  | succ n ih =>
    rw [Function.iterate_succ_apply']
    exact stepT_subset_univ T ih Finset.subset_union_right

theorem iterate_stepT_mono (T : Finset Trans) (S0 : Finset Nat) {n m : Nat}
    (h : n ≤ m) : (stepT T)^[n] S0 ⊆ (stepT T)^[m] S0 := by
  induction m with
  | zero => simp_all
  | succ m ih =>
    rcases Nat.lt_or_ge n (m + 1) with h' | h'
    · rw [Function.iterate_succ_apply']
      exact (ih (Nat.lt_succ_iff.mp h')).trans (subset_stepT T _)
    · have : n = m + 1 := Nat.le_antisymm h h'
      subst this
      exact subset_refl _

theorem iterate_stepT_card_ge (T : Finset Trans) (S0 : Finset Nat) (n : Nat)
    (h : ∀ m < n, (stepT T)^[m + 1] S0 ≠ (stepT T)^[m] S0) :
    n ≤ ((stepT T)^[n] S0).card := by
  induction n with
  | zero => exact Nat.zero_le _
  | succ n ih =>
    have hlt : (stepT T)^[n] S0 ⊂ (stepT T)^[n + 1] S0 := by
      refine Finset.ssubset_iff_subset_ne.mpr ⟨iterate_stepT_mono T S0 (Nat.le_succ n), ?_⟩
      exact fun hc => h n (Nat.lt_succ_self n) hc.symm
    have hcard := Finset.card_lt_card hlt
    have := ih (fun m hm => h m (Nat.lt_succ_of_lt hm))
    omega

theorem iterate_fix_propagate {α : Type} (f : α → α) (x : α) (n : Nat)
    (hfix : f^[n + 1] x = f^[n] x) : ∀ m, n ≤ m → f^[m] x = f^[n] x := by
  intro m hm
  induction m with
  | zero =>
    have : n = 0 := Nat.le_zero.mp hm
    simp [this]
  | succ m ih =>
    rcases Nat.lt_or_ge n (m + 1) with h' | h'
    · have hm' : n ≤ m := Nat.lt_succ_iff.mp h'
      rw [Function.iterate_succ_apply', ih hm']
      rw [Function.iterate_succ_apply'] at hfix
      exact hfix
    · have : n = m + 1 := Nat.le_antisymm hm h'
      simp [this]

theorem exists_iterate_stepT_fix (T : Finset Trans) (S0 : Finset Nat) :
    ∃ n < reachBound T S0, (stepT T)^[n + 1] S0 = (stepT T)^[n] S0 := by
  by_contra hc
  push_neg at hc
  have h := iterate_stepT_card_ge T S0 (reachBound T S0) (fun m hm => hc m hm)
  have h2 : ((stepT T)^[reachBound T S0] S0).card ≤ (S0 ∪ T.image Trans.tgt).card :=
    Finset.card_le_card (iterate_stepT_subset_univ T S0 _)
  unfold reachBound at h h2
  omega

theorem stepT_reachFrom (T : Finset Trans) (S0 : Finset Nat) :
    stepT T (reachFrom T S0) = reachFrom T S0 := by
  obtain ⟨n, hn, hfix⟩ := exists_iterate_stepT_fix T S0
  have h1 : (stepT T)^[reachBound T S0] S0 = (stepT T)^[n] S0 :=
    iterate_fix_propagate (stepT T) S0 n hfix _ (Nat.le_of_lt hn)
  have h2 : (stepT T)^[reachBound T S0 + 1] S0 = (stepT T)^[n] S0 :=
    iterate_fix_propagate (stepT T) S0 n hfix _ (Nat.le_succ_of_le (Nat.le_of_lt hn))
  unfold reachFrom
  rw [← Function.iterate_succ_apply' (stepT T) (reachBound T S0) S0, h2, h1]

theorem subset_reachFrom (T : Finset Trans) (S0 : Finset Nat) :
    S0 ⊆ reachFrom T S0 :=
  iterate_stepT_mono T S0 (Nat.zero_le _)

theorem reachFrom_closed (T : Finset Trans) (S0 : Finset Nat) {t : Trans}
    (ht : t ∈ T) (hs : t.src ∈ reachFrom T S0) : t.tgt ∈ reachFrom T S0 := by
  have : t.tgt ∈ stepT T (reachFrom T S0) := by
    apply Finset.mem_union_right
    exact Finset.mem_image_of_mem _ (Finset.mem_filter.mpr ⟨ht, hs⟩)
  rwa [stepT_reachFrom] at this

/-- `reachFrom` is the least set containing `S0` and closed under the
transitions of `T`: any property holding on `S0` and preserved by
transitions holds on all of `reachFrom T S0`. -/
theorem reachFrom_min (T : Finset Trans) (S0 : Finset Nat) (p : Nat → Prop)
    (hS : ∀ s ∈ S0, p s) (hstep : ∀ t ∈ T, p t.src → p t.tgt) :
    ∀ s ∈ reachFrom T S0, p s := by
  have key : ∀ n, ∀ s ∈ (stepT T)^[n] S0, p s := by
    intro n
    induction n with
    | zero => exact hS
    | succ n ih =>
      intro s hs
      rw [Function.iterate_succ_apply'] at hs
      rcases Finset.mem_union.mp hs with h | h
      · exact ih s h
      · obtain ⟨t, ht, rfl⟩ := Finset.mem_image.mp h
        have := Finset.mem_filter.mp ht
        exact hstep t this.1 (ih t.src this.2)
  exact key _

/-! ### Spec-modelled external NFA primitives -/

/-- The sub-automaton of `A` induced by the state set `S`: states, initial
and final states are intersected with `S` and only transitions with both
endpoints in `S` are kept. -/
def restrictNfa (A : Nfa) (S : Finset Nat) : Nfa where
  states := A.states ∩ S
  initialstates := A.initialstates ∩ S
  finalstates := A.finalstates ∩ S
  trans := A.trans.filter (fun t => t.src ∈ S ∧ t.tgt ∈ S)

/-- The reversal of a transition set. -/
def transReverse (T : Finset Trans) : Finset Trans :=
  T.image (fun t => ⟨t.tgt, t.symb, t.src⟩)

/-- Modelled from the spec: `get_reachable_states` of the external NFA
library returns the set of states reachable from the initial states
(§6 "reachable-state set per segment"). -/
def get_reachable_states (A : Nfa) : Finset Nat :=
  reachFrom A.trans A.initialstates

/-- States from which a final state is reachable. -/
def coreachableStates (A : Nfa) : Finset Nat :=
  reachFrom (transReverse A.trans) A.finalstates

/-- Modelled from the spec: `trim` of the external NFA library removes
the states that are not on any initial-to-final path (§6), i.e. restricts
the automaton to its reachable and co-reachable states. -/
def trim (A : Nfa) : Nfa :=
  restrictNfa A (get_reachable_states A ∩ coreachableStates A)

/-- The transitions of `A` whose symbol is not `ε`. -/
def nonEpsTrans (A : Nfa) (ε : Nat) : Finset Trans :=
  A.trans.filter (fun t => t.symb ≠ ε)

/-- A sorted listing of a finite set of states (Mata's `StateSet` is an
ordered vector): the naturals up to the set's maximum, filtered by
membership, which lists exactly the elements in increasing order. -/
def sortedList (s : Finset Nat) : List Nat :=
  (List.range (s.sup id + 1)).filter (fun x => decide (x ∈ s))

theorem mem_sortedList {s : Finset Nat} {i : Nat} : i ∈ sortedList s ↔ i ∈ s := by
  unfold sortedList
  simp only [List.mem_filter, List.mem_range, decide_eq_true_eq]
  constructor
  · exact fun h => h.2
  · intro h
    exact ⟨Nat.lt_succ_of_le (Finset.le_sup h : id i ≤ s.sup id), h⟩

theorem sortedList_nodup (s : Finset Nat) : (sortedList s).Nodup :=
  (List.nodup_range _).filter _

/-- A sorted listing of a finite set of transitions. -/
def sortedTransList (s : Finset Trans) : List Trans := s.sort (· ≤ ·)

/-- Modelled from the spec: one layer of the `Segmentation` exploration
(§4.1).  The current layer is the closure of `layerInits` under non-ε
transitions; the ε-transitions leaving the layer form the current depth
and seed the next layer.  A segment's state set is the layer, its initial
states are the layer seeds, and its final states are the sources of the
depth's ε-transitions (for the last segment, the ambient final states
restricted to the layer).  `fuel` bounds the recursion; well-formed
segmentations (no ε-cycles, §4.1 error conditions) terminate within
`|trans| + 1` layers. -/
def segmentationGo (A : Nfa) (ε : Nat) : Nat → Finset Nat → List Nfa × List (List Trans)
  | 0, _ => ([], [])
  | fuel + 1, layerInits =>
    let layer := reachFrom (nonEpsTrans A ε) layerInits
    let epsOut := A.trans.filter (fun t => t.symb = ε ∧ t.src ∈ layer)
    if epsOut = ∅ then
      ([{ restrictNfa A layer with initialstates := layerInits }], [])
    else
      let seg : Nfa :=
        { restrictNfa A layer with
          initialstates := layerInits
          finalstates := epsOut.image Trans.src }
      let rest := segmentationGo A ε fuel (epsOut.image Trans.tgt)
      (seg :: rest.1, sortedTransList epsOut :: rest.2)

/-- Modelled from the spec: the `Segmentation` component (§4.1): an
ordered sequence of segments together with the per-depth lists of
ε-transitions. -/
def segmentationOf (A : Nfa) (ε : Nat) : List Nfa × List (List Trans) :=
  segmentationGo A ε (A.trans.card + 1) A.initialstates

/-! ### Association-list maps

`std::map` / `std::unordered_map` are modelled as association lists whose
keys are unique; insertion with an existing key overwrites the value in
place, otherwise the entry is appended. -/

/-- `m[k] = v` on an association list: overwrite in place if the key is
present, append otherwise. -/
def mapUpdate {κ ν : Type} [BEq κ] [DecidableEq κ] (m : List (κ × ν)) (k : κ) (v : ν) :
    List (κ × ν) :=
  if (m.lookup k).isSome then
    m.map (fun p => if p.1 = k then (k, v) else p)
  else
    m ++ [(k, v)]

/-! ### The segment registry (`segments_one_initial_final`, lines 61-108) -/

/-- A copy of a segment with the final states pinned to `{f}`. -/
def pinFinal (A : Nfa) (f : Nat) : Nfa := { A with finalstates := {f} }

/-- A copy of a segment with the initial states pinned to `{i}`. -/
def pinInitial (A : Nfa) (i : Nat) : Nfa := { A with initialstates := {i} }

/-- Entries produced for the first segment: for each final state `f`,
a trimmed copy with final states `{f}` under key `(unused, f)`, kept only
if non-empty or `include_empty` is set. -/
def segFirstEntries (seg : Nfa) (unused : Nat) (include_empty : Bool) :
    List ((Nat × Nat) × Nfa) :=
  (sortedList seg.finalstates).filterMap (fun f =>
    if 0 < get_num_of_states (trim (pinFinal seg f)) ∨ include_empty = true then
      some ((unused, f), trim (pinFinal seg f))
    else none)

/-- Entries produced for the last segment: for each initial state `i`,
a trimmed copy with initial states `{i}` under key `(i, unused)`. -/
def segLastEntries (seg : Nfa) (unused : Nat) (include_empty : Bool) :
    List ((Nat × Nat) × Nfa) :=
  (sortedList seg.initialstates).filterMap (fun i =>
    if 0 < get_num_of_states (trim (pinInitial seg i)) ∨ include_empty = true then
      some ((i, unused), trim (pinInitial seg i))
    else none)

/-- Entries produced for a middle segment: for each pair `(i, f)` of an
initial and a final state, a trimmed copy with both pinned under key
`(i, f)`. -/
def segMidEntries (seg : Nfa) (include_empty : Bool) :
    List ((Nat × Nat) × Nfa) :=
  (sortedList seg.initialstates).flatMap (fun i =>
    (sortedList seg.finalstates).filterMap (fun f =>
      if 0 < get_num_of_states (trim (pinInitial (pinFinal seg f) i)) ∨
          include_empty = true then
        some ((i, f), trim (pinInitial (pinFinal seg f) i))
      else none))

/-- The sequence of registry insertions performed by the construction
pass over the segments (first / middle / last branches of the loop at
lines 73-108). -/
def registryEntries (segments : List Nfa) (unused : Nat) (include_empty : Bool) :
    List ((Nat × Nat) × Nfa) :=
  (List.range segments.length).flatMap (fun idx =>
    if idx = 0 then segFirstEntries (segments.getD idx default) unused include_empty
    else if idx = segments.length - 1 then
      segLastEntries (segments.getD idx default) unused include_empty
    else segMidEntries (segments.getD idx default) include_empty)

/-- The registry map `segments_one_initial_final`, obtained by performing
all insertions on an initially empty map. -/
def buildRegistry (segments : List Nfa) (unused : Nat) (include_empty : Bool) :
    List ((Nat × Nat) × Nfa) :=
  (registryEntries segments unused include_empty).foldl
    (fun m kv => mapUpdate m kv.1 kv.2) []

/-! ### Noodle enumeration (lines 35-43, 312-368) -/

/-- `get_num_of_permutations`: the number of combinations of
ε-transitions, one from each depth. -/
def get_num_of_permutations (epsilon_depths : List (List Trans)) : Nat :=
  epsilon_depths.foldl (fun acc segment => acc * segment.length) 1

/-- The inner decomposition loop (lines 325-330): at each depth pick the
transition at index `temp % k`, then divide `temp` by `k`. -/
def decomposeIndex : List (List Trans) → Nat → List Trans
  | [], _ => []
  | ts :: rest, temp =>
    ts.getD (temp % ts.length) default :: decomposeIndex rest (temp / ts.length)

/-- The chain of registry lookups along consecutive ε-transitions (lines
343-364): after the first segment, each middle segment is looked up under
`(previous.tgt, next.src)` and the last under `(last.tgt, unused)`; a
missing entry aborts the combination. -/
def assembleTail (lookup : Nat × Nat → Option Nfa) (unused : Nat) :
    Trans → List Trans → Option (List Nfa)
  | t, [] =>
    match lookup (t.tgt, unused) with
    | some seg => some [seg]
    | none => none
  | t, t' :: rest =>
    match lookup (t.tgt, t'.src) with
    | some seg =>
      match assembleTail lookup unused t' rest with
      | some noodle => some (seg :: noodle)
      | none => none
    | none => none

/-- Assembly of one noodle from a combination of ε-transitions (lines
332-366). -/
def assembleNoodle (lookup : Nat × Nat → Option Nfa) (unused : Nat)
    (epsilon_noodle : List Trans) : Option (List Nfa) :=
  match epsilon_noodle with
  | [] => none -- unreachable: the one-segment case was sorted out at the beginning
  | t0 :: rest =>
    match lookup (unused, t0.src) with
    | some first =>
      match assembleTail lookup unused t0 rest with
      | some noodle => some (first :: noodle)
      | none => none
    | none => none

/-- The enumeration loop (lines 323-367), running `fuel` iterations from
combination index `i` and appending each surviving noodle. -/
def enumGo (epsilon_depths : List (List Trans)) (lookup : Nat × Nat → Option Nfa)
    (unused : Nat) : Nat → Nat → List (List Nfa)
  | _, 0 => []
  | i, fuel + 1 =>
    (assembleNoodle lookup unused (decomposeIndex epsilon_depths i)).toList ++
      enumGo epsilon_depths lookup unused (i + 1) fuel

/-- The full enumeration: all combination indices in `[0, N)` in
increasing order. -/
def noodlifyEnum (epsilon_depths : List (List Trans))
    (lookup : Nat × Nat → Option Nfa) (unused : Nat) : List (List Nfa) :=
  enumGo epsilon_depths lookup unused 0 (get_num_of_permutations epsilon_depths)

/-! ### AFA emission (lines 110-310) -/

/-- The apostrophe marking the primed copy of a state. -/
def primeMark : String := (Char.ofNat 39).toString

/-- The atom for the primed copy of state `i`. -/
def qPrime (i : Nat) : String := "q" ++ toString i ++ primeMark

/-- Header lines (lines 115-122). -/
def headerStr (useBits : Bool) : String :=
  if useBits then "@AFA-bits\n"
  else "@AFA-explicit\n%Alphabet-numbers\n%Tracks-auto\n"

/-- One step of the cross-segment initial-tuple construction (lines
142-151): every old noodle is extended by every initial state of the
current segment, grouped by the initial state. -/
def initialNoodlesStep (olds : List (List Nat)) (inits : List Nat) :
    List (List Nat) :=
  inits.flatMap (fun i => olds.map (fun old => old ++ [i]))

/-- The Cartesian product of the initial-state sets of segments `1..D`
(the "initial noodles"). -/
def initialStatesNoodles (segments : List Nfa) : List (List Nat) :=
  (segments.drop 1).foldl
    (fun olds seg => initialNoodlesStep olds (sortedList seg.initialstates)) [[]]

/-- All cross-segment initial states in traversal order (lines 146,
304-306). -/
def allSegmentsInitialStates (segments : List Nfa) : List Nat :=
  (segments.drop 1).flatMap (fun seg => sortedList seg.initialstates)

/-- The `%Initial` formula (lines 124-177). -/
def initialFormulaStr (aut : Nfa) (segments : List Nfa) : String :=
  "%Initial (" ++
    String.intercalate " | "
      ((sortedList aut.initialstates).map (fun i => "q" ++ toString i)) ++
  ")" ++ " & (" ++
    String.intercalate " | " ((initialStatesNoodles segments).map (fun noodle =>
      "(" ++
        String.intercalate " & "
          (noodle.map (fun i => "q" ++ toString i ++ " & " ++ qPrime i)) ++
      ")")) ++
  ")\n"

/-- The insertion pass building `initStateToPreviousNonFinalStates`
(lines 139-154): each initial state of segment `d ≥ 1` is mapped to the
reachable-state set of the preceding segment. -/
def insertPhaseGo (m : List (Nat × List Nat)) (prevReach : List Nat) :
    List Nfa → List (Nat × List Nat)
  | [] => m
  | seg :: rest =>
    insertPhaseGo
      ((sortedList seg.initialstates).foldl (fun m' i => mapUpdate m' i prevReach) m)
      (sortedList (get_reachable_states seg)) rest

/-- `initStateToPreviousNonFinalStates` before the removal pass. -/
def initPrevMapPre (segments : List Nfa) : List (Nat × List Nat) :=
  match segments with
  | [] => []
  | s0 :: rest => insertPhaseGo [] (sortedList (get_reachable_states s0)) rest

/-- One removal step (line 181):
`initStateToPreviousNonFinalStates[tran.tgt].remove(tran.src)`; the
subscript default-constructs an empty entry when the key is absent. -/
def removeFromEntry (m : List (Nat × List Nat)) (tr : Trans) :
    List (Nat × List Nat) :=
  if (m.lookup tr.tgt).isSome then
    m.map (fun p => if p.1 = tr.tgt then (p.1, p.2.erase tr.src) else p)
  else
    m ++ [(tr.tgt, [])]

/-- `initStateToPreviousNonFinalStates` after the removal pass over all
ε-depths (lines 179-183). -/
def initPrevMap (segments : List Nfa) (epsilon_depths : List (List Trans)) :
    List (Nat × List Nat) :=
  epsilon_depths.foldl (fun m ts => ts.foldl removeFromEntry m)
    (initPrevMapPre segments)

/-- The entries of `initStateToPreviousNonFinalStates` that actually emit
a conjunct: those with a nonempty set (lines 213-216). -/
def finalConjunctPairs (segments : List Nfa) (epsilon_depths : List (List Trans)) :
    List (Nat × List Nat) :=
  (initPrevMap segments epsilon_depths).filter (fun p => !p.2.isEmpty)

/-- `stateSetMinus` (lines 185-193). -/
def stateSetMinus (lhs rhs : List Nat) : List Nat :=
  lhs.filter (fun s => !decide (s ∈ rhs))

/-- The entry-consistency conjunct emitted for one map entry (lines
218-228). -/
def conjunctStr (i : Nat) (P : List Nat) : String :=
  " & (!" ++ qPrime i ++ " | (" ++
    String.intercalate " & " (P.map (fun s => "!q" ++ toString s)) ++ "))"

/-- The `%Final` formula (lines 195-230). -/
def finalFormulaStr (segments : List Nfa) (epsilon_depths : List (List Trans)) :
    String :=
  let lastSeg := segments.getD (segments.length - 1) default
  let finalSegNonFinalStates :=
    stateSetMinus (sortedList (get_reachable_states lastSeg))
      (sortedList lastSeg.finalstates)
  "%Final " ++
  (if finalSegNonFinalStates.isEmpty then "true"
   else "(" ++
     String.intercalate " & "
       (finalSegNonFinalStates.map (fun s => "!q" ++ toString s)) ++ ")") ++
  String.join
    ((finalConjunctPairs segments epsilon_depths).map (fun p => conjunctStr p.1 p.2)) ++
  "\n"

/-- Count of leading zeros of a 32-bit value (`__builtin_clz`). -/
def clz32 (x : Nat) : Nat := 32 - Nat.size (x % 2 ^ 32)

/-- `neededBits` (lines 234-237). -/
def neededBitsOf (alphSize : Nat) : Nat :=
  if 1 < alphSize then 32 - clz32 (alphSize - 1) else 1

/-- The textual encoding of an already-remapped symbol on a track (lines
248-265): with `useBits`, one atom per bit position `i < neededBits`,
negated when bit `i` of the 32-bit value is `0`; otherwise the track
literal. -/
def emitSymbolStr (useBits : Bool) (neededBits : Nat) (remapped trackNum : Nat) :
    String :=
  if useBits then
    String.intercalate " & " ((List.range neededBits).map (fun i =>
      (if (remapped % 2 ^ 32).testBit i then "" else "!") ++
        "a" ++ toString (trackNum * neededBits + i)))
  else
    toString remapped ++ "@t" ++ toString trackNum

/-- The state of the symbol-remapping table: the map
`symbolRemapping` and the counter `newSymbol` (lines 232-233). -/
abbrev RemapSt := List (Nat × Nat) × Nat

/-- `remapSymbol` (lines 238-266): look the symbol up, assigning the next
fresh id on first sight, and render its encoding. -/
def remapCall (useBits : Bool) (neededBits : Nat) (st : RemapSt)
    (symToRemap trackNum : Nat) : RemapSt × String :=
  match st.1.lookup symToRemap with
  | none =>
    ((st.1 ++ [(symToRemap, st.2)], st.2 + 1),
     emitSymbolStr useBits neededBits st.2 trackNum)
  | some r => (st, emitSymbolStr useBits neededBits r trackNum)

/-- A map threading a state through a list. -/
def mapState {σ α β : Type} (f : σ → α → σ × β) : σ → List α → σ × List β
  | s, [] => (s, [])
  | s, a :: l =>
    let p := f s a
    let q := mapState f p.1 l
    (q.1, p.2 :: q.2)

/-- `get_transitions_from` of the external NFA library: the outgoing
transitions of `s` grouped by symbol, in symbol order, each with its
ordered post-set. -/
def get_transitions_from (A : Nfa) (s : Nat) : List (Nat × List Nat) :=
  (((A.trans.filter (fun t => t.src = s)).image Trans.symb).sort (· ≤ ·)).map
    (fun y => (y,
      sortedList ((A.trans.filter (fun t => t.src = s ∧ t.symb = y)).image Trans.tgt)))

/-- The transition line emitted for one reachable state (lines 272-300);
states with no outgoing transitions produce no line. -/
def stateLine (useBits : Bool) (neededBits : Nat) (varNum : Nat) (varAut : Nfa)
    (st : RemapSt) (s : Nat) : RemapSt × String :=
  let transFromState := get_transitions_from varAut s
  if transFromState.isEmpty then (st, "")
  else
    let p := mapState (fun st g =>
      let q := remapCall useBits neededBits st g.1 varNum
      (q.1, "(" ++ q.2 ++ " & (" ++
        String.intercalate " | " (g.2.map (fun r => "q" ++ toString r)) ++ "))"))
      st transFromState
    (p.1, "q" ++ toString s ++ " " ++ String.intercalate " | " p.2 ++ "\n")

/-- The whole transition section (lines 268-302): for every variable and
every segment index it occupies, all reachable states' lines, threading
the symbol-remapping table through the traversal. -/
def transitionSection (segments : List Nfa) (varLocs : List (List Nat))
    (useBits : Bool) (neededBits : Nat) : String :=
  let pairs := (List.range varLocs.length).flatMap
    (fun v => (varLocs.getD v []).map (fun loc => (v, loc)))
  let p := mapState (fun st pr =>
      let varAut := segments.getD pr.2 default
      let q := mapState (stateLine useBits neededBits pr.1 varAut) st
        (sortedList (get_reachable_states varAut))
      (q.1, String.join q.2))
    (([], 0) : RemapSt) pairs
  String.join p.2

/-- The primed self-loop stubs (lines 304-306). -/
def selfLoopsStr (segments : List Nfa) : String :=
  String.join ((allSegmentsInitialStates segments).map
    (fun i => qPrime i ++ " " ++ qPrime i ++ "\n"))

/-- The complete AFA text written to the sink during one general-path
call (lines 110-310). -/
def afaText (aut : Nfa) (segments : List Nfa) (epsilon_depths : List (List Trans))
    (varLocs : List (List Nat)) (alphSyms : List Nat) (useBits : Bool) : String :=
  headerStr useBits ++
  initialFormulaStr aut segments ++
  finalFormulaStr segments epsilon_depths ++
  transitionSection segments varLocs useBits (neededBitsOf alphSyms.length) ++
  selfLoopsStr segments ++
  "#AFA was fully printed\n"

/-! ### `noodlify` (lines 47-369) -/

/-- The body of `SegNfa::noodlify` given the segmentation output: the
single-segment fast path returns the trimmed segment (or nothing) with
no AFA text; the general path builds the registry, emits the AFA text
and enumerates the noodles. -/
def noodlifyCore (aut : Nfa) (segments : List Nfa)
    (epsilon_depths : List (List Trans)) (variableLocations : List (List Nat))
    (alphSyms : List Nat) (include_empty useBits : Bool) :
    List (List Nfa) × String :=
  if segments.length = 1 then
    let segment := trim (segments.getD 0 default)
    if 0 < get_num_of_states segment ∨ include_empty = true then ([[segment]], "")
    else ([], "")
  else
    let unused_state := get_num_of_states aut
    let registry := buildRegistry segments unused_state include_empty
    (noodlifyEnum epsilon_depths (fun k => registry.lookup k) unused_state,
     afaText aut segments epsilon_depths variableLocations alphSyms useBits)

/-- `SegNfa::noodlify`: segmentation followed by the core. -/
def noodlify (aut : Nfa) (ε : Nat) (variableLocations : List (List Nat))
    (alphSyms : List Nat) (include_empty useBits : Bool) :
    List (List Nfa) × String :=
  let sd := segmentationOf aut ε
  noodlifyCore aut sd.1 sd.2 variableLocations alphSyms include_empty useBits

/-! ### The equation driver (lines 371-485)

The driver only sequences calls to the external NFA library and
dispatches `noodlify`; it is translated parametrically over the external
operations and the dispatched `noodlify` implementation, so every theorem
about it holds for any implementation of the externals. -/

/-- The external NFA-library operations consumed by the equation driver
(§6 contract), over an abstract automaton type `α` and alphabet type
`β`. -/
structure NfaOps (α β : Type) where
  is_lang_empty : α → Bool
  trimOp : α → α
  concatenate : α → α → Nat → α
  intersection : α → α → Nat → α
  reduceOp : α → α
  invert : α → α
  unify_initial : α → α
  unify_final : α → α
  from_nfas : List α → β
  add_symbols_from : β → α → β
  get_next_value : β → Nat

/-- The configuration bag (`StringDict`): string keys to string values. -/
abbrev StringDict := List (String × String)

/-- `unify_initial` followed by `unify_final` applied to every left-hand
automaton. -/
def unifyAll {α β : Type} (ops : NfaOps α β) (left_automata : List α) : List α :=
  left_automata.map (fun a => ops.unify_final (ops.unify_initial a))

/-- The alphabet built from the left automata and the right automaton
(lines 384-385 / 448-449). -/
def driverAlphabet {α β : Type} (ops : NfaOps α β) (left_automata : List α)
    (right_automaton : α) : β :=
  ops.add_symbols_from (ops.from_nfas left_automata) right_automaton

/-- The concatenation of the left side over ε (lines 389-393 /
453-457). -/
def concatenatedLeftSide {α β : Type} (ops : NfaOps α β) (ε : Nat) (first : α)
    (rest : List α) : α :=
  rest.foldl (fun acc a => ops.concatenate acc a ε) first

/-- The trimmed ε-preserving product of the concatenated left side and
the right side (lines 395-396 / 459-460); only used with a nonempty left
side. -/
def driverProduct {α β : Type} (ops : NfaOps α β) (left_automata : List α)
    (right_automaton : α) : α :=
  match left_automata with
  | [] => right_automaton
  | first :: rest =>
    let ε := ops.get_next_value (driverAlphabet ops left_automata right_automaton)
    ops.trimOp
      (ops.intersection (concatenatedLeftSide ops ε first rest) right_automaton ε)

/-- The reduction block (lines 402-409 / 465-472): `forward` reduces,
`backward` inverts, reduces and inverts back, `bidirectional` does
both. -/
def applyReduce {α β : Type} (ops : NfaOps α β) (reduce_value : String) (p : α) :
    α :=
  let p1 := if reduce_value == "forward" || reduce_value == "bidirectional" then
    ops.reduceOp p else p
  if reduce_value == "backward" || reduce_value == "bidirectional" then
    ops.invert (ops.reduceOp (ops.invert p1)) else p1

/-- `useBits` selection (lines 411-420 / 474-483): `afa-type = tracks`
selects the track encoding, anything else (including an absent or
unrecognized value) keeps the default bit encoding. -/
def useBitsOf (params : StringDict) : Bool :=
  match params.lookup "afa-type" with
  | none => true
  | some v => if v == "tracks" then false else true

/-- The result type of a driver overload: the returned noodle sequence,
the AFA text written to the sink, and the final state of the left-hand
automata (the reference overload mutates them in place). -/
abbrev DriverResult (α : Type) := (List (List α) × String) × List α

/-- The shared tail of both overloads after the left automata have been
preprocessed: short-circuits, product construction, reduction, and the
dispatch to `noodlify` (`nood`). -/
def driverTail {α β : Type} (ops : NfaOps α β)
    (nood : α → Nat → List (List Nat) → β → Bool → Bool → List (List α) × String)
    (left_automata : List α) (right_automaton : α)
    (variableLocations : List (List Nat)) (include_empty : Bool)
    (reduce_value : String) (params : StringDict) : List (List α) × String :=
  if left_automata.isEmpty || ops.is_lang_empty right_automaton then ([], "")
  else
    let alphabet := driverAlphabet ops left_automata right_automaton
    let ε := ops.get_next_value alphabet
    let product := driverProduct ops left_automata right_automaton
    if ops.is_lang_empty product then ([], "")
    else
      let product2 := if reduce_value == "" then product
        else applyReduce ops reduce_value product
      nood product2 ε variableLocations alphabet include_empty (useBitsOf params)

/-- The `reduce` configuration value: the value stored under the
`reduce` key, or the empty string when the key is absent. -/
def reduceValueOf (params : StringDict) : String :=
  match params.lookup "reduce" with
  | none => ""
  | some v => v

/-- The left-hand automata as preprocessed by the pointer overload
(lines 436-444): unified only when the `reduce` value is recognized. -/
def ptrLeft {α β : Type} (ops : NfaOps α β) (params : StringDict)
    (left_automata : List α) : List α :=
  let reduce_value := reduceValueOf params
  if !reduce_value.isEmpty &&
      (reduce_value == "forward" || reduce_value == "backward" ||
        reduce_value == "bidirectional") then
    unifyAll ops left_automata
  else left_automata

/-- `noodlify_for_equation`, `AutRefSequence` overload (lines 371-422):
unifies the initial and final states of every left automaton
unconditionally, then runs the shared driver tail.  The reduce block is
guarded by the presence of the `reduce` key. -/
def noodlify_for_equation_ref {α β : Type} (ops : NfaOps α β)
    (nood : α → Nat → List (List Nat) → β → Bool → Bool → List (List α) × String)
    (left_automata : List α) (right_automaton : α)
    (variableLocations : List (List Nat)) (include_empty : Bool)
    (params : StringDict) : DriverResult α :=
  let left' := unifyAll ops left_automata
  (driverTail ops nood left' right_automaton variableLocations include_empty
    (reduceValueOf params) params, left')

/-- `noodlify_for_equation`, `AutPtrSequence` overload (lines 424-485):
unifies the left automata only when the configuration bag carries a
recognized `reduce` value. -/
def noodlify_for_equation_ptr {α β : Type} (ops : NfaOps α β)
    (nood : α → Nat → List (List Nat) → β → Bool → Bool → List (List α) × String)
    (left_automata : List α) (right_automaton : α)
    (variableLocations : List (List Nat)) (include_empty : Bool)
    (params : StringDict) : DriverResult α :=
  let left' := ptrLeft ops params left_automata
  (driverTail ops nood left' right_automaton variableLocations include_empty
    (reduceValueOf params) params, left')

/-! ## Concrete instances used by witnesses -/

/-- A trivial instantiation of the external operations over `Unit`
automata, used to witness the driver theorems. -/
def unitOps : NfaOps Unit Unit where
  is_lang_empty := fun _ => true
  trimOp := id
  concatenate := fun a _ _ => a
  intersection := fun a _ _ => a
  reduceOp := id
  invert := id
  unify_initial := id
  unify_final := id
  from_nfas := fun _ => ()
  add_symbols_from := fun _ _ => ()
  get_next_value := fun _ => 0

/-- A trivial `noodlify` implementation used to witness the driver
theorems; it returns a visibly nonempty result so that the
short-circuit conclusions are not vacuous. -/
def unitNood : Unit → Nat → List (List Nat) → Unit → Bool → Bool →
    List (List Unit) × String :=
  fun _ _ _ _ _ _ => ([[()]], "afa")

/-- A small concrete automaton: two states, one transition `0 -5-> 1`. -/
def nfaA : Nfa := ⟨{0, 1}, {0}, {1}, {⟨0, 5, 1⟩}⟩

/-- A one-state concrete automaton on state `2`. -/
def nfaB : Nfa := ⟨{2}, {2}, {2}, ∅⟩

/-- A concrete ambient automaton with an ε-transition (`ε = 9`) from
state `1` to state `2`. -/
def nfaAut : Nfa := ⟨{0, 1, 2}, {0}, {2}, {⟨0, 5, 1⟩, ⟨1, 9, 2⟩}⟩

/-! ## Claim C1 -/

theorem driverTail_empty_product {α β : Type} (ops : NfaOps α β)
    (nood : α → Nat → List (List Nat) → β → Bool → Bool → List (List α) × String)
    (la : List α) (ra : α) (v : List (List Nat)) (ie : Bool) (rv : String)
    (params : StringDict)
    (h : ops.is_lang_empty (driverProduct ops la ra) = true) :
    driverTail ops nood la ra v ie rv params = ([], "") := by
  unfold driverTail
  cases hc : la.isEmpty || ops.is_lang_empty ra
  · simp [hc, h]
  · simp [hc]

/-- C1: for both overloads of `noodlify_for_equation`, if the trimmed
product of the concatenated left side with the right automaton has empty
language, the call returns an empty noodle sequence and no AFA text is
written to the sink. -/
theorem claim_empty_product_short_circuit {α β : Type} (ops : NfaOps α β)
    (nood : α → Nat → List (List Nat) → β → Bool → Bool → List (List α) × String)
    (left_automata : List α) (right_automaton : α)
    (variableLocations : List (List Nat)) (include_empty : Bool)
    (params1 params2 : StringDict)
    (h1 : ops.is_lang_empty
      (driverProduct ops (unifyAll ops left_automata) right_automaton) = true)
    (h2 : ops.is_lang_empty
      (driverProduct ops (ptrLeft ops params2 left_automata) right_automaton) = true) :
    (noodlify_for_equation_ref ops nood left_automata right_automaton
      variableLocations include_empty params1).1 = ([], "") ∧
    (noodlify_for_equation_ptr ops nood left_automata right_automaton
      variableLocations include_empty params2).1 = ([], "") :=
  ⟨driverTail_empty_product ops nood _ _ _ _ _ _ h1,
   driverTail_empty_product ops nood _ _ _ _ _ _ h2⟩

theorem claim_empty_product_short_circuit_witness :
    (unitOps.is_lang_empty (driverProduct unitOps (unifyAll unitOps [()]) ()) = true) ∧
    (unitOps.is_lang_empty (driverProduct unitOps (ptrLeft unitOps [] [()]) ()) = true) ∧
    (noodlify_for_equation_ref unitOps unitNood [()] () [] false []).1 = ([], "") ∧
    (noodlify_for_equation_ptr unitOps unitNood [()] () [] false []).1 = ([], "") :=
  ⟨rfl, rfl,
   (claim_empty_product_short_circuit unitOps unitNood [()] () [] false [] [] rfl rfl).1,
   (claim_empty_product_short_circuit unitOps unitNood [()] () [] false [] [] rfl rfl).2⟩

/-! ## Claim C2 -/

/-- C2: the reference overload unifies the initial/final structure of
every left automaton unconditionally, while the pointer overload leaves
the left automata unmodified whenever the configuration bag does not
carry a recognized `reduce` value. -/
theorem claim_unify_overload_divergence {α β : Type} (ops : NfaOps α β)
    (nood : α → Nat → List (List Nat) → β → Bool → Bool → List (List α) × String)
    (left_automata : List α) (right_automaton : α)
    (variableLocations : List (List Nat)) (include_empty : Bool)
    (params1 params2 : StringDict)
    (h : ∀ r, params2.lookup "reduce" = some r →
      r ≠ "forward" ∧ r ≠ "backward" ∧ r ≠ "bidirectional") :
    (noodlify_for_equation_ref ops nood left_automata right_automaton
      variableLocations include_empty params1).2 = unifyAll ops left_automata ∧
    (noodlify_for_equation_ptr ops nood left_automata right_automaton
      variableLocations include_empty params2).2 = left_automata := by
  refine ⟨rfl, ?_⟩
  show ptrLeft ops params2 left_automata = left_automata
  unfold ptrLeft reduceValueOf
  cases hl : params2.lookup "reduce" with
  | none => simp
  | some r =>
    obtain ⟨hf, hb, hd⟩ := h r hl
    have hf' : (r == "forward") = false := beq_eq_false_iff_ne.mpr hf
    have hb' : (r == "backward") = false := beq_eq_false_iff_ne.mpr hb
    have hd' : (r == "bidirectional") = false := beq_eq_false_iff_ne.mpr hd
    simp [hf', hb', hd']

theorem claim_unify_overload_divergence_witness :
    (∀ r, ([] : StringDict).lookup "reduce" = some r →
      r ≠ "forward" ∧ r ≠ "backward" ∧ r ≠ "bidirectional") ∧
    (noodlify_for_equation_ref unitOps unitNood [()] () [] false
      [("afa-type", "tracks")]).2 = unifyAll unitOps [()] ∧
    (noodlify_for_equation_ptr unitOps unitNood [()] () [] false []).2 = [()] := by
  have h : ∀ r, ([] : StringDict).lookup "reduce" = some r →
      r ≠ "forward" ∧ r ≠ "backward" ∧ r ≠ "bidirectional" := by
    intro r hr
    simp [List.lookup] at hr
  exact ⟨h,
    (claim_unify_overload_divergence unitOps unitNood [()] () [] false
      [("afa-type", "tracks")] [] h).1,
    (claim_unify_overload_divergence unitOps unitNood [()] () [] false
      [("afa-type", "tracks")] [] h).2⟩

/-! ## Claim C10 -/

/-- C10: on the single-segment fast path `noodlify` returns before any
AFA text is produced: the emitted text is empty regardless of
`include_empty` or `useBits`. -/
theorem claim_fast_path_no_afa_output (aut : Nfa) (segments : List Nfa)
    (epsilon_depths : List (List Trans)) (variableLocations : List (List Nat))
    (alphSyms : List Nat) (include_empty useBits : Bool)
    (h : segments.length = 1) :
    (noodlifyCore aut segments epsilon_depths variableLocations alphSyms
      include_empty useBits).2 = "" := by
  unfold noodlifyCore
  simp only [h, if_pos]
  split <;> rfl

theorem claim_fast_path_no_afa_output_witness :
    ([nfaA].length = 1) ∧
    (noodlifyCore nfaA [nfaA] [] [] [] false true).2 = "" :=
  ⟨rfl, claim_fast_path_no_afa_output nfaA [nfaA] [] [] [] false true rfl⟩

/-! ## Claims C5 and C6 -/

/-- The product of the depth sizes below depth `d`. -/
def prodBelow (epsilon_depths : List (List Trans)) (d : Nat) : Nat :=
  ((epsilon_depths.take d).map List.length).prod

/-- The mixed-radix decomposition of combination index `i` as the spec
states it in closed form: at depth `d`, pick
`epsilonDepths[d][(i / Π_{e<d} k_e) % k_d]`. -/
def specMixedRadix (epsilon_depths : List (List Trans)) (i : Nat) : List Trans :=
  (List.range epsilon_depths.length).map (fun d =>
    (epsilon_depths.getD d []).getD
      ((i / prodBelow epsilon_depths d) % (epsilon_depths.getD d []).length) default)

theorem decomposeIndex_eq_spec (epsilon_depths : List (List Trans)) :
    ∀ i, decomposeIndex epsilon_depths i = specMixedRadix epsilon_depths i := by
  induction epsilon_depths with
  | nil => intro i; rfl
  | cons ts rest ih =>
    intro i
    show ts.getD (i % ts.length) default :: decomposeIndex rest (i / ts.length) = _
    rw [ih]
    unfold specMixedRadix
    simp only [List.length_cons]
    rw [List.range_succ_eq_map]
    simp only [List.map_cons, List.map_map]
    congr 1
    · simp [prodBelow]
    · apply List.map_congr_left
      intro d _
      simp only [Function.comp_apply, List.getD_cons_succ]
      have hp : prodBelow (ts :: rest) (d + 1) = ts.length * prodBelow rest d := by
        simp [prodBelow, List.take_succ_cons]
      rw [hp, ← Nat.div_div_eq_div_mul]

theorem enumGo_eq_filterMap (epsilon_depths : List (List Trans))
    (lookup : Nat × Nat → Option Nfa) (unused : Nat) :
    ∀ fuel i, enumGo epsilon_depths lookup unused i fuel
      = (List.range' i fuel).filterMap
          (fun j => assembleNoodle lookup unused (decomposeIndex epsilon_depths j)) := by
  intro fuel
  induction fuel with
  | zero => intro i; rfl
  | succ f ih =>
    intro i
    rw [List.range'_succ]
    show (assembleNoodle lookup unused (decomposeIndex epsilon_depths i)).toList ++
      enumGo epsilon_depths lookup unused (i + 1) f = _
    rw [ih (i + 1)]
    cases h : assembleNoodle lookup unused (decomposeIndex epsilon_depths i) <;>
      simp [h, List.filterMap_cons]

theorem length_filterMap_eq_iff {α β : Type} (f : α → Option β) (l : List α) :
    (l.filterMap f).length = l.length ↔ ∀ a ∈ l, (f a).isSome := by
  induction l with
  | nil => simp
  | cons a l ih =>
    cases h : f a with
    | none =>
      have hle := List.length_filterMap_le f l
      simp only [List.filterMap_cons, h, List.length_cons]
      constructor
      · intro h'
        exact absurd h' (by omega)
      · intro h'
        have := h' a (List.mem_cons_self a l)
        simp [h] at this
    | some b =>
      simp [List.filterMap_cons, h, ih]

/-- C5: noodle enumeration visits combination indices `0..N-1` in
increasing order, choosing at depth `d` the transition picked by the
mixed-radix decomposition, and the returned sequence lists the surviving
combinations in exactly that order. -/
theorem claim_mixed_radix_order (epsilon_depths : List (List Trans))
    (lookup : Nat × Nat → Option Nfa) (unused : Nat) :
    noodlifyEnum epsilon_depths lookup unused
      = (List.range (get_num_of_permutations epsilon_depths)).filterMap
          (fun i => assembleNoodle lookup unused (specMixedRadix epsilon_depths i)) := by
  unfold noodlifyEnum
  rw [enumGo_eq_filterMap, List.range_eq_range']
  simp only [decomposeIndex_eq_spec]

theorem get_num_of_permutations_eq (epsilon_depths : List (List Trans)) :
    get_num_of_permutations epsilon_depths = (epsilon_depths.map List.length).prod := by
  unfold get_num_of_permutations
  rw [List.prod_eq_foldl, List.foldl_map]

/-- C6: on the general path (at least two segments), the number of
returned noodles is at most `N = Π_d k_d`, with equality exactly when
every combination's registry lookups all succeed; if some depth has no
ε-transitions the result is empty. -/
theorem claim_combination_cardinality (aut : Nfa) (segments : List Nfa)
    (epsilon_depths : List (List Trans)) (variableLocations : List (List Nat))
    (alphSyms : List Nat) (include_empty useBits : Bool)
    (h2 : 2 ≤ segments.length) :
    (noodlifyCore aut segments epsilon_depths variableLocations alphSyms
        include_empty useBits).1.length ≤ get_num_of_permutations epsilon_depths ∧
    ((noodlifyCore aut segments epsilon_depths variableLocations alphSyms
        include_empty useBits).1.length = get_num_of_permutations epsilon_depths ↔
      ∀ i < get_num_of_permutations epsilon_depths,
        (assembleNoodle
          (fun k => (buildRegistry segments (get_num_of_states aut) include_empty).lookup k)
          (get_num_of_states aut) (decomposeIndex epsilon_depths i)).isSome) ∧
    ((∃ d < epsilon_depths.length, epsilon_depths.getD d [] = []) →
      (noodlifyCore aut segments epsilon_depths variableLocations alphSyms
        include_empty useBits).1 = []) := by
  have hne : ¬ segments.length = 1 := by omega
  have hcore : (noodlifyCore aut segments epsilon_depths variableLocations alphSyms
      include_empty useBits).1
      = noodlifyEnum epsilon_depths
          (fun k => (buildRegistry segments (get_num_of_states aut) include_empty).lookup k)
          (get_num_of_states aut) := by
    unfold noodlifyCore
    simp [hne]
  rw [hcore]
  unfold noodlifyEnum
  rw [enumGo_eq_filterMap, ← List.range_eq_range']
  refine ⟨?_, ?_, ?_⟩
  · calc (List.filterMap _ (List.range (get_num_of_permutations epsilon_depths))).length
        ≤ (List.range (get_num_of_permutations epsilon_depths)).length :=
          List.length_filterMap_le _ _
      _ = get_num_of_permutations epsilon_depths := List.length_range _
  · have h := length_filterMap_eq_iff
      (fun j => assembleNoodle
        (fun k => List.lookup k (buildRegistry segments (get_num_of_states aut) include_empty))
        (get_num_of_states aut) (decomposeIndex epsilon_depths j))
      (List.range (get_num_of_permutations epsilon_depths))
    simp only [List.length_range, List.mem_range] at h
    exact h
  · intro ⟨d, hd, hdep⟩
    have hzero : get_num_of_permutations epsilon_depths = 0 := by
      rw [get_num_of_permutations_eq]
      apply List.prod_eq_zero
      rw [List.mem_map]
      refine ⟨epsilon_depths.getD d [], ?_, by rw [hdep]; rfl⟩
      rw [List.getD_eq_getElem _ _ hd]
      exact List.getElem_mem hd
    rw [hzero]
    rfl

theorem claim_combination_cardinality_witness :
    2 ≤ [nfaA, nfaB].length ∧
    ((noodlifyCore nfaAut [nfaA, nfaB] [[⟨1, 9, 2⟩]] [] [] false true).1.length
        ≤ get_num_of_permutations [[⟨1, 9, 2⟩]] ∧
      ((noodlifyCore nfaAut [nfaA, nfaB] [[⟨1, 9, 2⟩]] [] [] false true).1.length
          = get_num_of_permutations [[⟨1, 9, 2⟩]] ↔
        ∀ i < get_num_of_permutations [[⟨1, 9, 2⟩]],
          (assembleNoodle
            (fun k => (buildRegistry [nfaA, nfaB] (get_num_of_states nfaAut) false).lookup k)
            (get_num_of_states nfaAut) (decomposeIndex [[⟨1, 9, 2⟩]] i)).isSome) ∧
      ((∃ d < ([[⟨1, 9, 2⟩]] : List (List Trans)).length,
          ([[⟨1, 9, 2⟩]] : List (List Trans)).getD d [] = []) →
        (noodlifyCore nfaAut [nfaA, nfaB] [[⟨1, 9, 2⟩]] [] [] false true).1 = [])) :=
  ⟨by decide,
   claim_combination_cardinality nfaAut [nfaA, nfaB] [[⟨1, 9, 2⟩]] [] [] false true
     (by decide)⟩

/-! ## Claim C4 -/

theorem size_pred_eq_clog (n : Nat) (h : 1 < n) :
    Nat.size (n - 1) = Nat.clog 2 n := by
  apply Nat.le_antisymm
  · rw [Nat.size_le]
    have h1 := Nat.le_pow_clog (show (1 : Nat) < 2 by norm_num) n
    omega
  · have h2 := Nat.lt_size_self (n - 1)
    exact (Nat.le_pow_iff_clog_le (show (1 : Nat) < 2 by norm_num)).mp (by omega)

theorem neededBitsOf_eq (n : Nat) (hn : n ≤ 2 ^ 32) :
    neededBitsOf n = max 1 (Nat.clog 2 n) := by
  unfold neededBitsOf clz32
  by_cases h1 : 1 < n
  · rw [if_pos h1]
    have hlt : n - 1 < 2 ^ 32 := by omega
    rw [Nat.mod_eq_of_lt hlt]
    have hs : Nat.size (n - 1) ≤ 32 := Nat.size_le.mpr hlt
    rw [size_pred_eq_clog n h1] at hs ⊢
    have hc : 1 ≤ Nat.clog 2 n := by
      by_contra hc
      push_neg at hc
      have h0 : Nat.clog 2 n ≤ 0 := by omega
      have h0' := (Nat.le_pow_iff_clog_le (show (1 : Nat) < 2 by norm_num)).mpr h0
      simp at h0'
      omega
    rw [Nat.max_eq_right hc]
    omega
  · rw [if_neg h1]
    have h0 : n = 0 ∨ n = 1 := by omega
    rcases h0 with h | h <;> subst h <;>
      simp [Nat.clog_zero_right, Nat.clog_one_right]

/-- The claim's big-endian bit emission, stated for comparison with the
code: atom `a_{v·nb+i}` would carry bit `nb-1-i` of the remapped value,
most significant bit first. -/
def emitSymbolBigEndian (neededBits remapped trackNum : Nat) : String :=
  String.intercalate " & " ((List.range neededBits).map (fun i =>
    (if remapped.testBit (neededBits - 1 - i) then "" else "!") ++
      "a" ++ toString (trackNum * neededBits + i)))

/-- C4 counterexample: the code uses one bit for an empty alphabet while
the claimed formula `⌈log₂(max(1,|alphabet|))⌉` gives zero, and with two
bits the remapped symbol `1` on track `0` is emitted as `a0 & !a1`
(least significant bit first), not as the claimed big-endian
`!a0 & a1`. -/
theorem claim_bit_encoding_counterexample :
    neededBitsOf 0 = 1 ∧ Nat.clog 2 (max 1 0) = 0 ∧
    emitSymbolStr true 2 1 0 = "a0 & !a1" ∧
    emitSymbolBigEndian 2 1 0 = "!a0 & a1" ∧
    emitSymbolStr true 2 1 0 ≠ emitSymbolBigEndian 2 1 0 := by
  refine ⟨rfl, Nat.clog_one_right 2, by decide, by decide, by decide⟩

/-- C4 amended: the bit width is `neededBits = max(1, ⌈log₂ |alphabet|⌉)`
(exactly 1 when the alphabet has at most one symbol), and each remapped
symbol on track `v` is emitted least-significant-bit first: the bit-atom
`a_{v·neededBits+i}` carries bit `i` of the remapped value, with a `!`
prefix on 0-bits. -/
theorem claim_bit_encoding_amended (n r v nb : Nat) (hn : n ≤ 2 ^ 32)
    (hr : r < 2 ^ 32) :
    neededBitsOf n = max 1 (Nat.clog 2 n) ∧
    emitSymbolStr true nb r v
      = String.intercalate " & " ((List.range nb).map (fun i =>
          (if r.testBit i then "" else "!") ++ "a" ++ toString (v * nb + i))) := by
  refine ⟨neededBitsOf_eq n hn, ?_⟩
  unfold emitSymbolStr
  have hr' : r % 4294967296 = r := Nat.mod_eq_of_lt (by omega)
  simp [hr']

/-! ## Claim C9 -/

/-- The sequence of `remapSymbol` invocations performed during one AFA
emission, threading the remapping table: each call carries the original
symbol and the track number. -/
def processCalls (useBits : Bool) (nb : Nat) (st : RemapSt)
    (calls : List (Nat × Nat)) : RemapSt × List String :=
  mapState (fun st c => remapCall useBits nb st c.1 c.2) st calls

/-- The first occurrences of a list's elements, in order of first
sight. -/
def firstOcc : List Nat → List Nat
  | [] => []
  | a :: l => a :: (firstOcc l).filter (fun b => decide (b ≠ a))

/-- The table pairing each element of `l` with its position offset by
`k`. -/
def tableFrom (k : Nat) : List Nat → List (Nat × Nat)
  | [] => []
  | a :: l => (a, k) :: tableFrom (k + 1) l

/-- The remapping table after the symbols `seen` have been processed:
the distinct symbols in order of first sight, paired with sequential
ids `0, 1, 2, …`. -/
def tableOf (seen : List Nat) : List (Nat × Nat) := tableFrom 0 (firstOcc seen)

theorem mem_firstOcc (b : Nat) : ∀ l : List Nat, b ∈ firstOcc l ↔ b ∈ l := by
  intro l
  induction l with
  | nil => rfl
  | cons a l ih =>
    show b ∈ a :: (firstOcc l).filter (fun b => decide (b ≠ a)) ↔ _
    simp only [List.mem_cons, List.mem_filter, ih, decide_eq_true_eq]
    by_cases hb : b = a <;> simp [hb]

theorem firstOcc_append (s m : List Nat) :
    firstOcc (s ++ m) = firstOcc s ++ (firstOcc m).filter (fun b => decide (b ∉ s)) := by
  induction s with
  | nil => simp [firstOcc]
  | cons a s ih =>
    show a :: (firstOcc (s ++ m)).filter (fun b => decide (b ≠ a))
        = (a :: (firstOcc s).filter (fun b => decide (b ≠ a))) ++
            (firstOcc m).filter (fun b => decide (b ∉ a :: s))
    rw [ih, List.filter_append, List.filter_filter, List.cons_append]
    congr 2
    apply List.filter_congr
    intro b _
    by_cases h1 : b = a <;> by_cases h2 : b ∈ s <;> simp [h1, h2]

theorem firstOcc_indexOf_stable (y : Nat) (s m : List Nat) (h : y ∈ s) :
    (firstOcc (s ++ m)).indexOf y = (firstOcc s).indexOf y := by
  rw [firstOcc_append]
  exact List.indexOf_append_of_mem ((mem_firstOcc y s).mpr h)

theorem firstOcc_append_self (s : List Nat) (y : Nat) (h : y ∈ s) :
    firstOcc (s ++ [y]) = firstOcc s := by
  rw [firstOcc_append]
  have hf : (firstOcc [y]).filter (fun b => decide (b ∉ s)) = [] := by
    simp [firstOcc, h]
  rw [hf, List.append_nil]

theorem firstOcc_append_fresh (s : List Nat) (y : Nat) (h : y ∉ s) :
    firstOcc (s ++ [y]) = firstOcc s ++ [y] := by
  rw [firstOcc_append]
  have hf : (firstOcc [y]).filter (fun b => decide (b ∉ s)) = [y] := by
    simp [firstOcc, h]
  rw [hf]

theorem tableFrom_append (y : Nat) :
    ∀ (l : List Nat) (k : Nat),
      tableFrom k (l ++ [y]) = tableFrom k l ++ [(y, k + l.length)] := by
  intro l
  induction l with
  | nil => intro k; simp [tableFrom]
  | cons a l ih =>
    intro k
    have harith : k + 1 + l.length = k + (l.length + 1) := by omega
    show (a, k) :: tableFrom (k + 1) (l ++ [y]) = _
    rw [ih]
    simp [tableFrom, harith]

theorem lookup_tableFrom (y : Nat) :
    ∀ (l : List Nat) (k : Nat),
      (tableFrom k l).lookup y = if y ∈ l then some (k + l.indexOf y) else none := by
  intro l
  induction l with
  | nil => intro k; rfl
  | cons a l ih =>
    intro k
    show List.lookup y ((a, k) :: tableFrom (k + 1) l) = _
    by_cases h : y = a
    · subst h
      simp [List.lookup, List.indexOf_cons_self]
    · have hbeq : (y == a) = false := beq_eq_false_iff_ne.mpr h
      have hidx : (a :: l).indexOf y = l.indexOf y + 1 := by
        rw [List.indexOf_cons_ne _ (Ne.symm h)]
      simp only [List.lookup, hbeq]
      rw [ih (k + 1)]
      by_cases hm : y ∈ l
      · rw [if_pos hm, if_pos (List.mem_cons.mpr (Or.inr hm)), hidx]
        congr 1
        omega
      · rw [if_neg hm, if_neg (by simp [h, hm])]

theorem indexOf_append_self (y : Nat) (l : List Nat) (h : y ∉ l) :
    (l ++ [y]).indexOf y = l.length := by
  rw [List.indexOf_append_of_not_mem h]
  simp [List.indexOf_cons_self]

theorem remapCall_tableOf (useBits : Bool) (nb : Nat) (seen : List Nat)
    (y v : Nat) :
    remapCall useBits nb (tableOf seen, (firstOcc seen).length) y v
      = ((tableOf (seen ++ [y]), (firstOcc (seen ++ [y])).length),
         emitSymbolStr useBits nb ((firstOcc (seen ++ [y])).indexOf y) v) := by
  have hlook : (tableOf seen).lookup y
      = if y ∈ seen then some ((firstOcc seen).indexOf y) else none := by
    rw [tableOf, lookup_tableFrom]
    simp [mem_firstOcc]
  by_cases hy : y ∈ seen
  · have hT := firstOcc_append_self seen y hy
    rw [if_pos hy] at hlook
    unfold remapCall
    rw [hlook]
    rw [tableOf, tableOf, hT]
  · have hT := firstOcc_append_fresh seen y hy
    rw [if_neg hy] at hlook
    unfold remapCall
    rw [hlook]
    have h1 : tableOf (seen ++ [y]) = tableOf seen ++ [(y, (firstOcc seen).length)] := by
      rw [tableOf, hT, tableFrom_append]
      simp [tableOf]
    have h2 : (firstOcc (seen ++ [y])).length = (firstOcc seen).length + 1 := by
      rw [hT]
      simp
    have h3 : (firstOcc (seen ++ [y])).indexOf y = (firstOcc seen).length := by
      rw [hT]
      exact indexOf_append_self y _ (fun hc => hy ((mem_firstOcc y seen).mp hc))
    rw [h1, h2, h3]

theorem processCalls_spec (useBits : Bool) (nb : Nat) :
    ∀ (calls : List (Nat × Nat)) (seen : List Nat),
      processCalls useBits nb (tableOf seen, (firstOcc seen).length) calls
        = ((tableOf (seen ++ calls.map Prod.fst),
            (firstOcc (seen ++ calls.map Prod.fst)).length),
           calls.map (fun c => emitSymbolStr useBits nb
             ((firstOcc (seen ++ calls.map Prod.fst)).indexOf c.1) c.2)) := by
  intro calls
  induction calls with
  | nil =>
    intro seen
    simp [processCalls, mapState]
  | cons c rest ih =>
    intro seen
    obtain ⟨y, v⟩ := c
    have hstep : processCalls useBits nb (tableOf seen, (firstOcc seen).length)
        ((y, v) :: rest)
        = ((processCalls useBits nb
              (tableOf (seen ++ [y]), (firstOcc (seen ++ [y])).length) rest).1,
           emitSymbolStr useBits nb ((firstOcc (seen ++ [y])).indexOf y) v ::
             (processCalls useBits nb
               (tableOf (seen ++ [y]), (firstOcc (seen ++ [y])).length) rest).2) := by
      have hc := remapCall_tableOf useBits nb seen y v
      show (let p := remapCall useBits nb (tableOf seen, (firstOcc seen).length) y v
            let q := mapState (fun st c => remapCall useBits nb st c.1 c.2) p.1 rest
            (q.1, p.2 :: q.2)) = _
      rw [hc]
      rfl
    have hassoc : (seen ++ [y]) ++ rest.map Prod.fst
        = seen ++ y :: rest.map Prod.fst := by
      simp
    have hidx : (firstOcc (seen ++ y :: rest.map Prod.fst)).indexOf y
        = (firstOcc (seen ++ [y])).indexOf y := by
      rw [← hassoc]
      exact firstOcc_indexOf_stable y (seen ++ [y]) (rest.map Prod.fst)
        (List.mem_append.mpr (Or.inr (List.mem_singleton.mpr rfl)))
    rw [hstep, ih (seen ++ [y]), hassoc, ← hidx]
    simp

/-- C9: within one AFA emission the remapping table assigns sequential
ids `0, 1, 2, …` in order of first sight, and every occurrence of an
original symbol is rendered from the same remapped id, so occurrences of
a symbol on the same track produce the same encoded atom string. -/
theorem claim_symbol_remap_stable (useBits : Bool) (nb : Nat)
    (calls : List (Nat × Nat)) :
    processCalls useBits nb ([], 0) calls
      = ((tableOf (calls.map Prod.fst), (firstOcc (calls.map Prod.fst)).length),
         calls.map (fun c => emitSymbolStr useBits nb
           ((firstOcc (calls.map Prod.fst)).indexOf c.1) c.2)) := by
  have h := processCalls_spec useBits nb calls []
  simpa [tableOf, firstOcc, tableFrom] using h

/-! ## Claim C3 -/

theorem lookup_append_entry {ν : Type} (m m' : List (Nat × ν)) (j : Nat) :
    (m ++ m').lookup j
      = match m.lookup j with
        | some v => some v
        | none => m'.lookup j := by
  induction m with
  | nil => rfl
  | cons p m ih =>
    obtain ⟨a, b⟩ := p
    show List.lookup j ((a, b) :: (m ++ m')) = _
    by_cases h : j = a
    · subst h
      simp [List.lookup]
    · have hb : (j == a) = false := beq_eq_false_iff_ne.mpr h
      simp [List.lookup, hb, ih]

theorem lookup_map_modify {ν : Type} (k : Nat) (g : ν → ν) :
    ∀ (m : List (Nat × ν)) (j : Nat),
      (m.map (fun p => if p.1 = k then (p.1, g p.2) else p)).lookup j
        = if j = k then (m.lookup j).map g else m.lookup j := by
  intro m
  induction m with
  | nil =>
    intro j
    split <;> rfl
  | cons p m ih =>
    intro j
    obtain ⟨a, b⟩ := p
    rw [List.map_cons]
    by_cases hak : a = k
    · subst hak
      rw [if_pos rfl]
      by_cases hja : j = a
      · subst hja
        simp [List.lookup]
      · have hb : (j == a) = false := beq_eq_false_iff_ne.mpr hja
        simp only [List.lookup, hb]
        rw [ih j]
    · rw [if_neg hak]
      by_cases hja : j = a
      · subst hja
        simp [List.lookup, hak]
      · have hb : (j == a) = false := beq_eq_false_iff_ne.mpr hja
        simp only [List.lookup, hb]
        rw [ih j]

theorem lookup_mapUpdate {ν : Type} (m : List (Nat × ν)) (k j : Nat) (v : ν) :
    (mapUpdate m k v).lookup j = if j = k then some v else m.lookup j := by
  unfold mapUpdate
  by_cases hs : (m.lookup k).isSome
  · rw [if_pos hs]
    have hmap : m.map (fun p => if p.1 = k then (k, v) else p)
        = m.map (fun p => if p.1 = k then (p.1, (fun _ => v) p.2) else p) := by
      apply List.map_congr_left
      intro p _
      by_cases h : p.1 = k <;> simp [h]
    rw [hmap]
    rw [lookup_map_modify k (fun _ => v) m j]
    by_cases hjk : j = k
    · subst hjk
      rw [if_pos rfl, if_pos rfl]
      obtain ⟨w, hw⟩ := Option.isSome_iff_exists.mp hs
      rw [hw]
      rfl
    · rw [if_neg hjk, if_neg hjk]
  · rw [if_neg hs]
    rw [lookup_append_entry]
    by_cases hjk : j = k
    · subst hjk
      have hnone : m.lookup j = none := Option.not_isSome_iff_eq_none.mp hs
      rw [hnone, if_pos rfl]
      simp [List.lookup]
    · rw [if_neg hjk]
      have hb : (j == k) = false := beq_eq_false_iff_ne.mpr hjk
      cases hm : m.lookup j
      · simp [List.lookup, hb]
      · simp [List.lookup, hb]

theorem lookup_mem {ν : Type} : ∀ (m : List (Nat × ν)) (j : Nat) (v : ν),
    m.lookup j = some v → (j, v) ∈ m := by
  intro m
  induction m with
  | nil =>
    intro j v h
    cases h
  | cons p m ih =>
    intro j v h
    obtain ⟨a, b⟩ := p
    by_cases hja : j = a
    · subst hja
      simp [List.lookup] at h
      subst h
      exact List.mem_cons_self _ _
    · have hb : (j == a) = false := beq_eq_false_iff_ne.mpr hja
      simp only [List.lookup, hb] at h
      exact List.mem_cons_of_mem _ (ih j v h)

theorem lookup_foldl_mapUpdate {ν : Type} (v : ν) :
    ∀ (l : List Nat) (m : List (Nat × ν)) (j : Nat),
      (l.foldl (fun m' i => mapUpdate m' i v) m).lookup j
        = if j ∈ l then some v else m.lookup j := by
  intro l
  induction l with
  | nil => intro m j; simp
  | cons a l ih =>
    intro m j
    show (l.foldl _ (mapUpdate m a v)).lookup j = _
    rw [ih]
    by_cases hjl : j ∈ l
    · rw [if_pos hjl, if_pos (List.mem_cons.mpr (Or.inr hjl))]
    · rw [if_neg hjl, lookup_mapUpdate]
      by_cases hja : j = a
      · rw [if_pos hja, if_pos (List.mem_cons.mpr (Or.inl hja))]
      · rw [if_neg hja, if_neg (by simp [hja, hjl])]

theorem lookup_insertPhaseGo_notmem (i : Nat) :
    ∀ (rest : List Nfa) (m : List (Nat × List Nat)) (prev : List Nat),
      (∀ e, e < rest.length → i ∉ (rest.getD e default).initialstates) →
      (insertPhaseGo m prev rest).lookup i = m.lookup i := by
  intro rest
  induction rest with
  | nil => intro m prev _; rfl
  | cons seg rest ih =>
    intro m prev h
    show (insertPhaseGo _ _ rest).lookup i = _
    rw [ih _ _ (fun e he => by
      have := h (e + 1) (by simpa using Nat.succ_lt_succ he)
      simpa using this)]
    rw [lookup_foldl_mapUpdate]
    have h0 : i ∉ seg.initialstates := by
      have := h 0 (by simp)
      simpa using this
    have hns : i ∉ sortedList seg.initialstates := fun hc => h0 (mem_sortedList.mp hc)
    rw [if_neg hns]

theorem lookup_insertPhaseGo (i : Nat) :
    ∀ (rest : List Nfa) (m : List (Nat × List Nat)) (prev : List Nat) (e : Nat),
      e < rest.length →
      i ∈ (rest.getD e default).initialstates →
      (∀ e', e' < rest.length → e' ≠ e → i ∉ (rest.getD e' default).initialstates) →
      (insertPhaseGo m prev rest).lookup i
        = some (if e = 0 then prev
            else sortedList (get_reachable_states (rest.getD (e - 1) default))) := by
  intro rest
  induction rest with
  | nil =>
    intro m prev e he
    exact absurd he (by simp)
  | cons seg rest ih =>
    intro m prev e he hi huniq
    show (insertPhaseGo ((sortedList seg.initialstates).foldl _ m)
      (sortedList (get_reachable_states seg)) rest).lookup i = _
    cases e with
    | zero =>
      have hi0 : i ∈ seg.initialstates := by simpa using hi
      have hnot : ∀ e', e' < rest.length →
          i ∉ (rest.getD e' default).initialstates := by
        intro e' he'
        have := huniq (e' + 1) (by simpa using Nat.succ_lt_succ he') (by simp)
        simpa using this
      rw [lookup_insertPhaseGo_notmem i rest _ _ hnot]
      rw [lookup_foldl_mapUpdate]
      have hps : i ∈ sortedList seg.initialstates := mem_sortedList.mpr hi0
      rw [if_pos hps, if_pos rfl]
    | succ e' =>
      have he'' : e' < rest.length := by simpa using Nat.lt_of_succ_lt_succ he
      have hi' : i ∈ (rest.getD e' default).initialstates := by simpa using hi
      have huniq' : ∀ f, f < rest.length → f ≠ e' →
          i ∉ (rest.getD f default).initialstates := by
        intro f hf hfe
        have := huniq (f + 1) (by simpa using Nat.succ_lt_succ hf) (by omega)
        simpa using this
      rw [ih _ _ e' he'' hi' huniq']
      rw [if_neg (Nat.succ_ne_zero e')]
      cases e' with
      | zero =>
        rw [if_pos rfl]
        simp
      | succ e'' =>
        rw [if_neg (Nat.succ_ne_zero e'')]
        simp

theorem lookup_initPrevMapPre (segments : List Nfa) (d i : Nat)
    (hd1 : 1 ≤ d) (hd2 : d < segments.length)
    (hi : i ∈ (segments.getD d default).initialstates)
    (huniq : ∀ e, 1 ≤ e → e < segments.length → e ≠ d →
      i ∉ (segments.getD e default).initialstates) :
    (initPrevMapPre segments).lookup i
      = some (sortedList (get_reachable_states (segments.getD (d - 1) default))) := by
  match segments, hd2 with
  | s0 :: rest, hd2 =>
    show (insertPhaseGo [] (sortedList (get_reachable_states s0)) rest).lookup i = _
    obtain ⟨e, rfl⟩ : ∃ e, d = e + 1 := ⟨d - 1, by omega⟩
    have he : e < rest.length := by
      simpa using Nat.lt_of_succ_lt_succ hd2
    have hi' : i ∈ (rest.getD e default).initialstates := by simpa using hi
    have huniq' : ∀ e', e' < rest.length → e' ≠ e →
        i ∉ (rest.getD e' default).initialstates := by
      intro e' he' hne
      have := huniq (e' + 1) (by omega) (by simpa using Nat.succ_lt_succ he')
        (by omega)
      simpa using this
    rw [lookup_insertPhaseGo i rest [] _ e he hi' huniq']
    cases e with
    | zero => simp
    | succ e'' =>
      rw [if_neg (Nat.succ_ne_zero e'')]
      simp

theorem lookup_removeFromEntry (m : List (Nat × List Nat)) (tr : Trans) (j : Nat) :
    (removeFromEntry m tr).lookup j
      = if j = tr.tgt then
          (match m.lookup tr.tgt with
           | some P => some (P.erase tr.src)
           | none => some [])
        else m.lookup j := by
  unfold removeFromEntry
  by_cases hs : (m.lookup tr.tgt).isSome
  · rw [if_pos hs]
    rw [lookup_map_modify tr.tgt (fun P => P.erase tr.src) m j]
    by_cases hjt : j = tr.tgt
    · subst hjt
      rw [if_pos rfl, if_pos rfl]
      obtain ⟨P, hP⟩ := Option.isSome_iff_exists.mp hs
      rw [hP]
      rfl
    · rw [if_neg hjt, if_neg hjt]
  · rw [if_neg hs]
    rw [lookup_append_entry]
    have hnone : m.lookup tr.tgt = none := Option.not_isSome_iff_eq_none.mp hs
    by_cases hjt : j = tr.tgt
    · subst hjt
      rw [hnone, if_pos rfl]
      simp [List.lookup]
    · rw [if_neg hjt]
      have hb : (j == tr.tgt) = false := beq_eq_false_iff_ne.mpr hjt
      cases hm : m.lookup j
      · simp [List.lookup, hb]
      · simp [List.lookup, hb]

theorem lookup_foldl_remove (i : Nat) :
    ∀ (trs : List Trans) (m : List (Nat × List Nat)) (P : List Nat),
      m.lookup i = some P → P.Nodup →
      (trs.foldl removeFromEntry m).lookup i
        = some (P.filter (fun s => decide (¬ ∃ t ∈ trs, t.tgt = i ∧ t.src = s))) := by
  intro trs
  induction trs with
  | nil =>
    intro m P hP _
    rw [List.foldl_nil, hP]
    congr 1
    symm
    apply List.filter_eq_self.mpr
    intro s _
    simp
  | cons tr trs ih =>
    intro m P hP hnd
    show (trs.foldl removeFromEntry (removeFromEntry m tr)).lookup i = _
    by_cases htgt : tr.tgt = i
    · have h1 : (removeFromEntry m tr).lookup i = some (P.erase tr.src) := by
        rw [lookup_removeFromEntry, if_pos htgt.symm, htgt, hP]
      rw [ih _ _ h1 (hnd.erase tr.src)]
      congr 1
      rw [hnd.erase_eq_filter tr.src, List.filter_filter]
      apply List.filter_congr
      intro s _
      by_cases h1' : s = tr.src
      · subst h1'
        have hb2 : (tr.src != tr.src) = false := by simp
        rw [hb2, Bool.and_false]
        have hex : ∃ t ∈ tr :: trs, t.tgt = i ∧ t.src = tr.src :=
          ⟨tr, List.mem_cons_self _ _, htgt, rfl⟩
        symm
        rw [decide_eq_false_iff_not]
        exact fun hc => hc hex
      · have hbne : (s != tr.src) = true := by simp [h1']
        rw [hbne, Bool.and_true]
        apply decide_eq_decide.mpr
        apply not_congr
        constructor
        · rintro ⟨t, ht, h2, h3⟩
          exact ⟨t, List.mem_cons_of_mem _ ht, h2, h3⟩
        · rintro ⟨t, ht, h2, h3⟩
          rcases List.mem_cons.mp ht with rfl | ht'
          · exact absurd h3 (fun hc => h1' hc.symm)
          · exact ⟨t, ht', h2, h3⟩
    · have h1 : (removeFromEntry m tr).lookup i = some P := by
        rw [lookup_removeFromEntry, if_neg (fun hc => htgt hc.symm), hP]
      rw [ih _ _ h1 hnd]
      congr 1
      apply List.filter_congr
      intro s _
      apply decide_eq_decide.mpr
      apply not_congr
      constructor
      · rintro ⟨t, ht, h2, h3⟩
        exact ⟨t, List.mem_cons_of_mem _ ht, h2, h3⟩
      · rintro ⟨t, ht, h2, h3⟩
        rcases List.mem_cons.mp ht with rfl | ht'
        · exact absurd h2 htgt
        · exact ⟨t, ht', h2, h3⟩

theorem foldl_remove_flat (epsilon_depths : List (List Trans)) :
    ∀ (m : List (Nat × List Nat)),
      epsilon_depths.foldl (fun m ts => ts.foldl removeFromEntry m) m
        = (epsilon_depths.flatMap id).foldl removeFromEntry m := by
  induction epsilon_depths with
  | nil => intro m; rfl
  | cons ts deps ih =>
    intro m
    show deps.foldl _ (ts.foldl removeFromEntry m) = _
    rw [ih, List.flatMap_cons, List.foldl_append]
    rfl

/-- The "previous non-final" set as corrected from the code: the states
reachable in the segment preceding segment `d`, minus the SOURCES of the
ε-transitions targeting `i`. -/
def prevNonFinalAmended (segments : List Nfa) (epsilon_depths : List (List Trans))
    (d i : Nat) : List Nat :=
  (sortedList (get_reachable_states (segments.getD (d - 1) default))).filter
    (fun s => decide (¬ ∃ t ∈ epsilon_depths.flatMap id, t.tgt = i ∧ t.src = s))

/-- The claim's version of the "previous non-final" set, stated for
comparison: the states reachable in the preceding segment minus the set
`{tgt | (src,ε,tgt) ∈ epsilonDepths, tgt = i}` of ε-transition TARGETS
equal to `i`. -/
def prevNonFinalClaimed (segments : List Nfa) (epsilon_depths : List (List Trans))
    (d i : Nat) : List Nat :=
  (sortedList (get_reachable_states (segments.getD (d - 1) default))).filter
    (fun s => decide (¬ ∃ t ∈ epsilon_depths.flatMap id, t.tgt = i ∧ s = t.tgt))

/-- C3 counterexample: with two segments (reach of the first is `{0,1}`)
and the single ε-transition `1 -ε-> 2`, the emitter's map at the
cross-segment initial `2` holds `{0}` — the ε-SOURCE `1` was removed —
while the claim's formula `reach \ {tgt | tgt = 2}` keeps `{0,1}`;
the emitted conjunct therefore covers `{0}`, not the claimed set. -/
theorem claim_final_conjuncts_counterexample :
    (initPrevMap [nfaA, nfaB] [[⟨1, 9, 2⟩]]).lookup 2 = some [0] ∧
    prevNonFinalClaimed [nfaA, nfaB] [[⟨1, 9, 2⟩]] 1 2 = [0, 1] ∧
    ¬ (initPrevMap [nfaA, nfaB] [[⟨1, 9, 2⟩]]).lookup 2
        = some (prevNonFinalClaimed [nfaA, nfaB] [[⟨1, 9, 2⟩]] 1 2) :=
  ⟨by decide, by decide, by decide⟩

/-- C3 amended: for a cross-segment initial `i` of segment `d` (unique
among the segments' initial-state sets), the emitter's "previous
non-final" set is P(i) = (states reachable in the preceding segment) \
{src | (src,ε,tgt) ∈ epsilonDepths, tgt = i}, and the `%Final` conjunct
`(¬q_i' | (¬q_s …))` over `s ∈ P(i)` is emitted exactly when `P(i)` is
nonempty. -/
theorem claim_final_conjuncts_amended (segments : List Nfa)
    (epsilon_depths : List (List Trans)) (d i : Nat)
    (hd1 : 1 ≤ d) (hd2 : d < segments.length)
    (hi : i ∈ (segments.getD d default).initialstates)
    (huniq : ∀ e, 1 ≤ e → e < segments.length → e ≠ d →
      i ∉ (segments.getD e default).initialstates) :
    (initPrevMap segments epsilon_depths).lookup i
        = some (prevNonFinalAmended segments epsilon_depths d i) ∧
    ((i, prevNonFinalAmended segments epsilon_depths d i)
        ∈ finalConjunctPairs segments epsilon_depths ↔
      prevNonFinalAmended segments epsilon_depths d i ≠ []) := by
  have h1 := lookup_initPrevMapPre segments d i hd1 hd2 hi huniq
  have h2 : (initPrevMap segments epsilon_depths).lookup i
      = some (prevNonFinalAmended segments epsilon_depths d i) := by
    unfold initPrevMap
    rw [foldl_remove_flat]
    exact lookup_foldl_remove i _ _ _ h1 (sortedList_nodup _)
  refine ⟨h2, ?_, ?_⟩
  · intro hmem
    have := (List.mem_filter.mp hmem).2
    intro hc
    rw [hc] at this
    simp at this
  · intro hne
    apply List.mem_filter.mpr
    refine ⟨lookup_mem _ _ _ h2, ?_⟩
    simp [hne]

theorem claim_final_conjuncts_amended_witness :
    (1 ≤ 1 ∧ 1 < [nfaA, nfaB].length ∧
      2 ∈ (([nfaA, nfaB].getD 1 default).initialstates) ∧
      (∀ e, 1 ≤ e → e < [nfaA, nfaB].length → e ≠ 1 →
        2 ∉ ([nfaA, nfaB].getD e default).initialstates)) ∧
    ((initPrevMap [nfaA, nfaB] [[⟨1, 9, 2⟩]]).lookup 2
        = some (prevNonFinalAmended [nfaA, nfaB] [[⟨1, 9, 2⟩]] 1 2) ∧
     ((2, prevNonFinalAmended [nfaA, nfaB] [[⟨1, 9, 2⟩]] 1 2)
        ∈ finalConjunctPairs [nfaA, nfaB] [[⟨1, 9, 2⟩]] ↔
      prevNonFinalAmended [nfaA, nfaB] [[⟨1, 9, 2⟩]] 1 2 ≠ [])) :=
  ⟨⟨by decide, by decide, by decide, by decide⟩,
   claim_final_conjuncts_amended [nfaA, nfaB] [[⟨1, 9, 2⟩]] 1 2
     (by decide) (by decide) (by decide) (by decide)⟩

/-! ## Claim C8 -/

theorem lookup_append_none {κ ν : Type} [BEq κ] [LawfulBEq κ] :
    ∀ (m : List (κ × ν)) (k : κ) (kv : κ × ν),
      m.lookup k = none → k ≠ kv.1 → (m ++ [kv]).lookup k = none := by
  intro m
  induction m with
  | nil =>
    intro k kv _ h2
    obtain ⟨a, b⟩ := kv
    have hb : (k == a) = false := beq_eq_false_iff_ne.mpr h2
    simp [List.lookup, hb]
  | cons p m ih =>
    intro k kv h1 h2
    obtain ⟨a, b⟩ := p
    by_cases hka : k = a
    · subst hka
      simp [List.lookup] at h1
    · have hb : (k == a) = false := beq_eq_false_iff_ne.mpr hka
      simp only [List.lookup, hb] at h1 ⊢
      exact ih k kv h1 h2

theorem mapUpdate_fresh {κ ν : Type} [BEq κ] [DecidableEq κ]
    (m : List (κ × ν)) (k : κ) (v : ν) (h : m.lookup k = none) :
    mapUpdate m k v = m ++ [(k, v)] := by
  unfold mapUpdate
  rw [h]
  rfl

theorem foldl_mapUpdate_fresh {κ ν : Type} [BEq κ] [LawfulBEq κ] [DecidableEq κ] :
    ∀ (entries m : List (κ × ν)),
      (entries.map Prod.fst).Nodup →
      (∀ k ∈ entries.map Prod.fst, m.lookup k = none) →
      entries.foldl (fun m' kv => mapUpdate m' kv.1 kv.2) m = m ++ entries := by
  intro entries
  induction entries with
  | nil =>
    intro m _ _
    simp
  | cons kv entries ih =>
    intro m hnd hfresh
    have hnd' : (kv.1 :: entries.map Prod.fst).Nodup := by
      rw [List.map_cons] at hnd
      exact hnd
    have hhead : kv.1 ∉ entries.map Prod.fst := (List.nodup_cons.mp hnd').1
    show entries.foldl _ (mapUpdate m kv.1 kv.2) = _
    rw [mapUpdate_fresh m kv.1 kv.2 (hfresh kv.1 (by simp))]
    rw [ih (m ++ [(kv.1, kv.2)])]
    · simp
    · exact (List.nodup_cons.mp hnd').2
    · intro k hk
      apply lookup_append_none
      · exact hfresh k (by simp [hk])
      · intro hc
        exact hhead (hc ▸ hk)

theorem buildRegistry_eq_entries (segments : List Nfa) (unused : Nat) (ie : Bool)
    (h : ((registryEntries segments unused ie).map Prod.fst).Nodup) :
    buildRegistry segments unused ie = registryEntries segments unused ie := by
  unfold buildRegistry
  rw [foldl_mapUpdate_fresh _ [] h (fun k _ => rfl)]
  simp

theorem mem_segFirstEntries {seg : Nfa} {unused : Nat} {ie : Bool}
    {kv : (Nat × Nat) × Nfa} :
    kv ∈ segFirstEntries seg unused ie ↔
      ∃ f ∈ seg.finalstates,
        kv = ((unused, f), trim (pinFinal seg f)) ∧
        (0 < get_num_of_states (trim (pinFinal seg f)) ∨ ie = true) := by
  unfold segFirstEntries
  rw [List.mem_filterMap]
  constructor
  · rintro ⟨f, hf, hsome⟩
    by_cases hc : 0 < get_num_of_states (trim (pinFinal seg f)) ∨ ie = true
    · rw [if_pos hc] at hsome
      exact ⟨f, mem_sortedList.mp hf, (Option.some.injEq _ _ ▸ hsome).symm, hc⟩
    · rw [if_neg hc] at hsome
      cases hsome
  · rintro ⟨f, hf, rfl, hc⟩
    exact ⟨f, mem_sortedList.mpr hf, by rw [if_pos hc]⟩

theorem mem_segLastEntries {seg : Nfa} {unused : Nat} {ie : Bool}
    {kv : (Nat × Nat) × Nfa} :
    kv ∈ segLastEntries seg unused ie ↔
      ∃ i ∈ seg.initialstates,
        kv = ((i, unused), trim (pinInitial seg i)) ∧
        (0 < get_num_of_states (trim (pinInitial seg i)) ∨ ie = true) := by
  unfold segLastEntries
  rw [List.mem_filterMap]
  constructor
  · rintro ⟨i, hi, hsome⟩
    by_cases hc : 0 < get_num_of_states (trim (pinInitial seg i)) ∨ ie = true
    · rw [if_pos hc] at hsome
      exact ⟨i, mem_sortedList.mp hi, (Option.some.injEq _ _ ▸ hsome).symm, hc⟩
    · rw [if_neg hc] at hsome
      cases hsome
  · rintro ⟨i, hi, rfl, hc⟩
    exact ⟨i, mem_sortedList.mpr hi, by rw [if_pos hc]⟩

theorem mem_segMidEntries {seg : Nfa} {ie : Bool} {kv : (Nat × Nat) × Nfa} :
    kv ∈ segMidEntries seg ie ↔
      ∃ i ∈ seg.initialstates, ∃ f ∈ seg.finalstates,
        kv = ((i, f), trim (pinInitial (pinFinal seg f) i)) ∧
        (0 < get_num_of_states (trim (pinInitial (pinFinal seg f) i)) ∨ ie = true) := by
  unfold segMidEntries
  rw [List.mem_flatMap]
  constructor
  · rintro ⟨i, hi, hmem⟩
    rw [List.mem_filterMap] at hmem
    obtain ⟨f, hf, hsome⟩ := hmem
    by_cases hc : 0 < get_num_of_states (trim (pinInitial (pinFinal seg f) i)) ∨ ie = true
    · rw [if_pos hc] at hsome
      exact ⟨i, mem_sortedList.mp hi, f, mem_sortedList.mp hf,
        (Option.some.injEq _ _ ▸ hsome).symm, hc⟩
    · rw [if_neg hc] at hsome
      cases hsome
  · rintro ⟨i, hi, f, hf, rfl, hc⟩
    refine ⟨i, mem_sortedList.mpr hi, ?_⟩
    rw [List.mem_filterMap]
    exact ⟨f, mem_sortedList.mpr hf, by rw [if_pos hc]⟩

theorem mem_registryEntries {segments : List Nfa} {unused : Nat} {ie : Bool}
    {kv : (Nat × Nat) × Nfa} :
    kv ∈ registryEntries segments unused ie ↔
      ∃ idx < segments.length,
        kv ∈ (if idx = 0 then segFirstEntries (segments.getD idx default) unused ie
          else if idx = segments.length - 1 then
            segLastEntries (segments.getD idx default) unused ie
          else segMidEntries (segments.getD idx default) ie) := by
  unfold registryEntries
  rw [List.mem_flatMap]
  constructor
  · rintro ⟨idx, hidx, hmem⟩
    exact ⟨idx, List.mem_range.mp hidx, hmem⟩
  · rintro ⟨idx, hidx, hmem⟩
    exact ⟨idx, List.mem_range.mpr hidx, hmem⟩

theorem nodup_filterMap_keys_snd (l : List Nat) (c : Nat) (cond : Nat → Prop)
    [DecidablePred cond] (hl : l.Nodup) :
    (l.filterMap (fun f => if cond f then some ((c, f) : Nat × Nat) else none)).Nodup := by
  apply List.Nodup.filterMap ?_ hl
  intro a a' b hb1 hb2
  split at hb1
  · split at hb2
    · rw [Option.mem_some_iff] at hb1 hb2
      exact (Prod.ext_iff.mp (hb1.trans hb2.symm)).2
    · simp at hb2
  · simp at hb1

theorem nodup_filterMap_keys_fst (l : List Nat) (c : Nat) (cond : Nat → Prop)
    [DecidablePred cond] (hl : l.Nodup) :
    (l.filterMap (fun i => if cond i then some ((i, c) : Nat × Nat) else none)).Nodup := by
  apply List.Nodup.filterMap ?_ hl
  intro a a' b hb1 hb2
  split at hb1
  · split at hb2
    · rw [Option.mem_some_iff] at hb1 hb2
      exact (Prod.ext_iff.mp (hb1.trans hb2.symm)).1
    · simp at hb2
  · simp at hb1

theorem nodup_keys_segFirstEntries (seg : Nfa) (unused : Nat) (ie : Bool) :
    ((segFirstEntries seg unused ie).map Prod.fst).Nodup := by
  unfold segFirstEntries
  have h : ∀ f ∈ sortedList seg.finalstates,
      Option.map Prod.fst
        (if 0 < get_num_of_states (trim (pinFinal seg f)) ∨ ie = true
          then some (((unused, f) : Nat × Nat), trim (pinFinal seg f)) else none)
        = (if 0 < get_num_of_states (trim (pinFinal seg f)) ∨ ie = true
          then some ((unused, f) : Nat × Nat) else none) := by
    intro f _
    split <;> rfl
  rw [List.map_filterMap, List.filterMap_congr h]
  exact nodup_filterMap_keys_snd _ _ _ (sortedList_nodup _)

theorem nodup_keys_segLastEntries (seg : Nfa) (unused : Nat) (ie : Bool) :
    ((segLastEntries seg unused ie).map Prod.fst).Nodup := by
  unfold segLastEntries
  have h : ∀ i ∈ sortedList seg.initialstates,
      Option.map Prod.fst
        (if 0 < get_num_of_states (trim (pinInitial seg i)) ∨ ie = true
          then some (((i, unused) : Nat × Nat), trim (pinInitial seg i)) else none)
        = (if 0 < get_num_of_states (trim (pinInitial seg i)) ∨ ie = true
          then some ((i, unused) : Nat × Nat) else none) := by
    intro i _
    split <;> rfl
  rw [List.map_filterMap, List.filterMap_congr h]
  exact nodup_filterMap_keys_fst _ _ _ (sortedList_nodup _)

theorem nodup_flatMap_of_disjoint {β : Type} (l : List Nat) (F : Nat → List β)
    (hl : l.Nodup) (hF : ∀ i ∈ l, (F i).Nodup)
    (hdis : ∀ i ∈ l, ∀ j ∈ l, i ≠ j → ∀ b ∈ F i, b ∉ F j) :
    (l.flatMap F).Nodup := by
  induction l with
  | nil => simp
  | cons a rest ih =>
    rw [List.flatMap_cons, List.nodup_append]
    have hnd := List.nodup_cons.mp hl
    refine ⟨hF a (by simp), ?_, ?_⟩
    · exact ih hnd.2 (fun i hi => hF i (by simp [hi]))
        (fun i hi j hj hij => hdis i (by simp [hi]) j (by simp [hj]) hij)
    · intro b hb1 hb2
      rw [List.mem_flatMap] at hb2
      obtain ⟨j, hj, hbj⟩ := hb2
      have haj : a ≠ j := fun hc => hnd.1 (hc ▸ hj)
      exact hdis a (by simp) j (by simp [hj]) haj b hb1 hbj

theorem nodup_keys_segMidEntries (seg : Nfa) (ie : Bool) :
    ((segMidEntries seg ie).map Prod.fst).Nodup := by
  unfold segMidEntries
  rw [List.map_flatMap]
  apply nodup_flatMap_of_disjoint _ _ (sortedList_nodup _)
  · intro i _
    have h : ∀ f ∈ sortedList seg.finalstates,
        Option.map Prod.fst
          (if 0 < get_num_of_states (trim (pinInitial (pinFinal seg f) i)) ∨ ie = true
            then some (((i, f) : Nat × Nat), trim (pinInitial (pinFinal seg f) i))
            else none)
          = (if 0 < get_num_of_states (trim (pinInitial (pinFinal seg f) i)) ∨ ie = true
            then some ((i, f) : Nat × Nat) else none) := by
      intro f _
      split <;> rfl
    rw [List.map_filterMap, List.filterMap_congr h]
    exact nodup_filterMap_keys_snd _ _ _ (sortedList_nodup _)
  · intro i hi j hj hij b hb1 hb2
    have h1 : b.1 = i := by
      rw [List.mem_map] at hb1
      obtain ⟨kv, hkv, rfl⟩ := hb1
      rw [List.mem_filterMap] at hkv
      obtain ⟨f, _, hsome⟩ := hkv
      split at hsome
      · obtain rfl := Option.some_inj.mp hsome
        rfl
      · cases hsome
    have h2 : b.1 = j := by
      rw [List.mem_map] at hb2
      obtain ⟨kv, hkv, hfst⟩ := hb2
      rw [List.mem_filterMap] at hkv
      obtain ⟨f, _, hsome⟩ := hkv
      split at hsome
      · obtain rfl := Option.some_inj.mp hsome
        rw [← hfst]
      · cases hsome
    exact hij (h1.symm.trans h2)

theorem key_shape_branch {segments : List Nfa} {unused : Nat} {ie : Bool}
    {idx : Nat} {b : Nat × Nat}
    (hb : b ∈ List.map Prod.fst
      (if idx = 0 then segFirstEntries (segments.getD idx default) unused ie
       else if idx = segments.length - 1 then
         segLastEntries (segments.getD idx default) unused ie
       else segMidEntries (segments.getD idx default) ie)) :
    (idx = 0 ∧ ∃ f ∈ (segments.getD idx default).finalstates, b = (unused, f))
    ∨ (idx ≠ 0 ∧ idx = segments.length - 1 ∧
        ∃ i ∈ (segments.getD idx default).initialstates, b = (i, unused))
    ∨ (idx ≠ 0 ∧ idx ≠ segments.length - 1 ∧
        ∃ i ∈ (segments.getD idx default).initialstates,
        ∃ f ∈ (segments.getD idx default).finalstates, b = (i, f)) := by
  by_cases h0 : idx = 0
  · rw [if_pos h0] at hb
    left
    refine ⟨h0, ?_⟩
    rw [List.mem_map] at hb
    obtain ⟨kv, hkv, rfl⟩ := hb
    obtain ⟨f, hf, rfl, -⟩ := mem_segFirstEntries.mp hkv
    exact ⟨f, hf, rfl⟩
  · rw [if_neg h0] at hb
    by_cases h1 : idx = segments.length - 1
    · rw [if_pos h1] at hb
      right; left
      refine ⟨h0, h1, ?_⟩
      rw [List.mem_map] at hb
      obtain ⟨kv, hkv, rfl⟩ := hb
      obtain ⟨i, hi, rfl, -⟩ := mem_segLastEntries.mp hkv
      exact ⟨i, hi, rfl⟩
    · rw [if_neg h1] at hb
      right; right
      refine ⟨h0, h1, ?_⟩
      rw [List.mem_map] at hb
      obtain ⟨kv, hkv, rfl⟩ := hb
      obtain ⟨i, hi, f, hf, rfl, -⟩ := mem_segMidEntries.mp hkv
      exact ⟨i, hi, f, hf, rfl⟩

theorem getD_mem_of_lt (segments : List Nfa) (idx : Nat) (h : idx < segments.length) :
    segments.getD idx default ∈ segments := by
  rw [List.getD_eq_getElem _ _ h]
  exact List.getElem_mem h

theorem nodup_registry_keys (segments : List Nfa) (unused : Nat) (ie : Bool)
    (hfresh : ∀ seg ∈ segments, unused ∉ seg.initialstates ∧ unused ∉ seg.finalstates)
    (hdisj : ∀ j j', 0 < j → j < segments.length - 1 → 0 < j' →
      j' < segments.length - 1 → j ≠ j' →
      Disjoint (segments.getD j default).initialstates
        (segments.getD j' default).initialstates) :
    ((registryEntries segments unused ie).map Prod.fst).Nodup := by
  unfold registryEntries
  rw [List.map_flatMap]
  apply nodup_flatMap_of_disjoint _ _ (List.nodup_range _)
  · intro idx _
    by_cases h0 : idx = 0
    · rw [if_pos h0]
      exact nodup_keys_segFirstEntries _ _ _
    · rw [if_neg h0]
      by_cases h1 : idx = segments.length - 1
      · rw [if_pos h1]
        exact nodup_keys_segLastEntries _ _ _
      · rw [if_neg h1]
        exact nodup_keys_segMidEntries _ _
  · intro idx1 hidx1 idx2 hidx2 hne b hb1 hb2
    rw [List.mem_range] at hidx1 hidx2
    have hm1 := getD_mem_of_lt segments idx1 hidx1
    have hm2 := getD_mem_of_lt segments idx2 hidx2
    rcases key_shape_branch hb1 with
      ⟨h10, f1, hf1, rfl⟩ | ⟨h10, h11, i1, hi1, rfl⟩ | ⟨h10, h11, i1, hi1, f1, hf1, rfl⟩ <;>
      rcases key_shape_branch hb2 with
        ⟨h20, f2, hf2, heq⟩ | ⟨h20, h21, i2, hi2, heq⟩ | ⟨h20, h21, i2, hi2, f2, hf2, heq⟩ <;>
      rw [Prod.mk.injEq] at heq <;>
      obtain ⟨heqA, heqB⟩ := heq
    · exact hne (h10.trans h20.symm)
    · exact (hfresh _ hm1).2 (heqB ▸ hf1)
    · exact (hfresh _ hm2).1 (heqA ▸ hi2)
    · exact (hfresh _ hm2).2 (heqB ▸ hf2)
    · exact hne (h11.trans h21.symm)
    · exact (hfresh _ hm2).2 (heqB ▸ hf2)
    · exact (hfresh _ hm1).1 (heqA ▸ hi1)
    · exact (hfresh _ hm1).2 (heqB ▸ hf1)
    · have hmid1 : 0 < idx1 ∧ idx1 < segments.length - 1 := by omega
      have hmid2 : 0 < idx2 ∧ idx2 < segments.length - 1 := by omega
      have hd := hdisj idx1 idx2 hmid1.1 hmid1.2 hmid2.1 hmid2.2 hne
      exact (Finset.disjoint_left.mp hd) hi1 (heqA ▸ hi2)

/-- C8: the registry is built with keys `(⊥, f)` for the finals of the
first segment, `(i, ⊥)` for the initials of the last segment, and
`(i, f)` for initial/final pairs of middle segments, with `⊥` the
sentinel `unused`; every stored entry is the trimmed pinned copy and is
stored exactly when it has at least one state or `include_empty` is set
(invariant I2). -/
theorem claim_registry_characterization (segments : List Nfa) (unused : Nat)
    (include_empty : Bool) (k : Nat × Nat) (v : Nfa)
    (hlen : 2 ≤ segments.length)
    (hfresh : ∀ seg ∈ segments, unused ∉ seg.initialstates ∧ unused ∉ seg.finalstates)
    (hdisj : ∀ j j', 0 < j → j < segments.length - 1 → 0 < j' →
      j' < segments.length - 1 → j ≠ j' →
      Disjoint (segments.getD j default).initialstates
        (segments.getD j' default).initialstates) :
    (k, v) ∈ buildRegistry segments unused include_empty ↔
      ((∃ f ∈ (segments.getD 0 default).finalstates,
          k = (unused, f) ∧ v = trim (pinFinal (segments.getD 0 default) f) ∧
          (0 < get_num_of_states v ∨ include_empty = true))
       ∨ (∃ j, 0 < j ∧ j < segments.length - 1 ∧
            ∃ i ∈ (segments.getD j default).initialstates,
            ∃ f ∈ (segments.getD j default).finalstates,
              k = (i, f) ∧
              v = trim (pinInitial (pinFinal (segments.getD j default) f) i) ∧
              (0 < get_num_of_states v ∨ include_empty = true))
       ∨ (∃ i ∈ (segments.getD (segments.length - 1) default).initialstates,
            k = (i, unused) ∧
            v = trim (pinInitial (segments.getD (segments.length - 1) default) i) ∧
            (0 < get_num_of_states v ∨ include_empty = true))) := by
  rw [buildRegistry_eq_entries segments unused include_empty
    (nodup_registry_keys segments unused include_empty hfresh hdisj)]
  rw [mem_registryEntries]
  constructor
  · rintro ⟨idx, hidx, hmem⟩
    by_cases h0 : idx = 0
    · subst h0
      rw [if_pos rfl] at hmem
      obtain ⟨f, hf, hkv, hc⟩ := mem_segFirstEntries.mp hmem
      rw [Prod.mk.injEq] at hkv
      obtain ⟨hk, hv⟩ := hkv
      left
      exact ⟨f, hf, hk, hv, by rw [hv]; exact hc⟩
    · rw [if_neg h0] at hmem
      by_cases h1 : idx = segments.length - 1
      · subst h1
        rw [if_pos rfl] at hmem
        obtain ⟨i, hi, hkv, hc⟩ := mem_segLastEntries.mp hmem
        rw [Prod.mk.injEq] at hkv
        obtain ⟨hk, hv⟩ := hkv
        right; right
        exact ⟨i, hi, hk, hv, by rw [hv]; exact hc⟩
      · rw [if_neg h1] at hmem
        obtain ⟨i, hi, f, hf, hkv, hc⟩ := mem_segMidEntries.mp hmem
        rw [Prod.mk.injEq] at hkv
        obtain ⟨hk, hv⟩ := hkv
        right; left
        exact ⟨idx, by omega, by omega, i, hi, f, hf, hk, hv, by rw [hv]; exact hc⟩
  · rintro (⟨f, hf, hk, hv, hc⟩ | ⟨j, hj0, hj1, i, hi, f, hf, hk, hv, hc⟩ |
      ⟨i, hi, hk, hv, hc⟩)
    · refine ⟨0, by omega, ?_⟩
      rw [if_pos rfl]
      apply mem_segFirstEntries.mpr
      exact ⟨f, hf, by rw [Prod.mk.injEq]; exact ⟨hk, hv⟩, by rw [← hv]; exact hc⟩
    · refine ⟨j, by omega, ?_⟩
      rw [if_neg (by omega), if_neg (by omega)]
      apply mem_segMidEntries.mpr
      exact ⟨i, hi, f, hf, by rw [Prod.mk.injEq]; exact ⟨hk, hv⟩,
        by rw [← hv]; exact hc⟩
    · refine ⟨segments.length - 1, by omega, ?_⟩
      rw [if_neg (by omega), if_pos rfl]
      apply mem_segLastEntries.mpr
      exact ⟨i, hi, by rw [Prod.mk.injEq]; exact ⟨hk, hv⟩, by rw [← hv]; exact hc⟩

theorem claim_registry_characterization_witness :
    (2 ≤ ([nfaA, nfaB] : List Nfa).length ∧
      (∀ seg ∈ ([nfaA, nfaB] : List Nfa),
        3 ∉ seg.initialstates ∧ 3 ∉ seg.finalstates)) ∧
    (((3, 1), trim (pinFinal (([nfaA, nfaB] : List Nfa).getD 0 default) 1))
        ∈ buildRegistry [nfaA, nfaB] 3 false ↔
      ((∃ f ∈ (([nfaA, nfaB] : List Nfa).getD 0 default).finalstates,
          ((3, 1) : Nat × Nat) = (3, f) ∧
          trim (pinFinal (([nfaA, nfaB] : List Nfa).getD 0 default) 1)
            = trim (pinFinal (([nfaA, nfaB] : List Nfa).getD 0 default) f) ∧
          (0 < get_num_of_states
              (trim (pinFinal (([nfaA, nfaB] : List Nfa).getD 0 default) 1)) ∨
            false = true))
       ∨ (∃ j, 0 < j ∧ j < ([nfaA, nfaB] : List Nfa).length - 1 ∧
            ∃ i ∈ (([nfaA, nfaB] : List Nfa).getD j default).initialstates,
            ∃ f ∈ (([nfaA, nfaB] : List Nfa).getD j default).finalstates,
              ((3, 1) : Nat × Nat) = (i, f) ∧
              trim (pinFinal (([nfaA, nfaB] : List Nfa).getD 0 default) 1)
                = trim (pinInitial
                    (pinFinal (([nfaA, nfaB] : List Nfa).getD j default) f) i) ∧
              (0 < get_num_of_states
                  (trim (pinFinal (([nfaA, nfaB] : List Nfa).getD 0 default) 1)) ∨
                false = true))
       ∨ (∃ i ∈ (([nfaA, nfaB] : List Nfa).getD
              (([nfaA, nfaB] : List Nfa).length - 1) default).initialstates,
            ((3, 1) : Nat × Nat) = (i, 3) ∧
            trim (pinFinal (([nfaA, nfaB] : List Nfa).getD 0 default) 1)
              = trim (pinInitial (([nfaA, nfaB] : List Nfa).getD
                  (([nfaA, nfaB] : List Nfa).length - 1) default) i) ∧
            (0 < get_num_of_states
                (trim (pinFinal (([nfaA, nfaB] : List Nfa).getD 0 default) 1)) ∨
              false = true)))) := by
  have hdisj : ∀ j j', 0 < j → j < ([nfaA, nfaB] : List Nfa).length - 1 → 0 < j' →
      j' < ([nfaA, nfaB] : List Nfa).length - 1 → j ≠ j' →
      Disjoint (([nfaA, nfaB] : List Nfa).getD j default).initialstates
        (([nfaA, nfaB] : List Nfa).getD j' default).initialstates := by
    intro j j' h1 h2 _ _ _
    exfalso
    have hl : ([nfaA, nfaB] : List Nfa).length - 1 = 1 := rfl
    rw [hl] at h2
    omega
  exact ⟨⟨by decide, by decide⟩,
    claim_registry_characterization [nfaA, nfaB] 3 false (3, 1)
      (trim (pinFinal (([nfaA, nfaB] : List Nfa).getD 0 default) 1))
      (by decide) (by decide) hdisj⟩

/-! ## Claim C7 -/

theorem initial_subset_reachable (A : Nfa) :
    A.initialstates ⊆ get_reachable_states A :=
  subset_reachFrom _ _

theorem mem_restrict_trans {A : Nfa} {S : Finset Nat} {t : Trans} :
    t ∈ (restrictNfa A S).trans ↔ t ∈ A.trans ∧ t.src ∈ S ∧ t.tgt ∈ S := by
  simp [restrictNfa, Finset.mem_filter]

theorem reach_restrict_subset (A : Nfa) :
    get_reachable_states (restrictNfa A (get_reachable_states A))
      ⊆ get_reachable_states A := by
  intro s hs
  refine reachFrom_min (restrictNfa A (get_reachable_states A)).trans
    (restrictNfa A (get_reachable_states A)).initialstates
    (fun x => x ∈ get_reachable_states A) ?_ ?_ s hs
  · intro x hx
    exact (Finset.mem_inter.mp hx).2
  · intro t ht _
    exact (mem_restrict_trans.mp ht).2.2

theorem reach_restrict_eq (A : Nfa) :
    get_reachable_states (restrictNfa A (get_reachable_states A))
      = get_reachable_states A := by
  apply Finset.Subset.antisymm (reach_restrict_subset A)
  intro s hs
  refine reachFrom_min A.trans A.initialstates
    (fun x => x ∈ get_reachable_states (restrictNfa A (get_reachable_states A)))
    ?_ ?_ s hs
  · intro x hx
    apply subset_reachFrom
    exact Finset.mem_inter.mpr ⟨hx, initial_subset_reachable A hx⟩
  · intro t ht hsrc
    have hsrcR : t.src ∈ get_reachable_states A := reach_restrict_subset A hsrc
    have htgtR : t.tgt ∈ get_reachable_states A := reachFrom_closed _ _ ht hsrcR
    have htB : t ∈ (restrictNfa A (get_reachable_states A)).trans :=
      mem_restrict_trans.mpr ⟨ht, hsrcR, htgtR⟩
    exact reachFrom_closed _ _ htB hsrc

theorem coreach_restrict_subset (A : Nfa) (S : Finset Nat) :
    coreachableStates (restrictNfa A S) ⊆ coreachableStates A := by
  intro s hs
  refine reachFrom_min (transReverse (restrictNfa A S).trans)
    (restrictNfa A S).finalstates (fun x => x ∈ coreachableStates A) ?_ ?_ s hs
  · intro x hx
    exact subset_reachFrom _ _ ((Finset.mem_inter.mp hx).1)
  · intro t ht hsrc
    obtain ⟨u, hu, rfl⟩ := Finset.mem_image.mp ht
    have huA : u ∈ A.trans := (mem_restrict_trans.mp hu).1
    exact reachFrom_closed _ _ (Finset.mem_image_of_mem _ huA) hsrc

theorem inter_coreach_restrict (A : Nfa) :
    get_reachable_states A
        ∩ coreachableStates (restrictNfa A (get_reachable_states A))
      = get_reachable_states A ∩ coreachableStates A := by
  apply Finset.Subset.antisymm
  · intro s hs
    obtain ⟨h1, h2⟩ := Finset.mem_inter.mp hs
    exact Finset.mem_inter.mpr ⟨h1, coreach_restrict_subset A _ h2⟩
  · intro s hs
    obtain ⟨hR, hC⟩ := Finset.mem_inter.mp hs
    refine Finset.mem_inter.mpr ⟨hR, ?_⟩
    revert hR
    refine reachFrom_min (transReverse A.trans) A.finalstates
      (fun x => x ∈ get_reachable_states A →
        x ∈ coreachableStates (restrictNfa A (get_reachable_states A)))
      ?_ ?_ s hC
    · intro f hf hfR
      apply subset_reachFrom
      exact Finset.mem_inter.mpr ⟨hf, hfR⟩
    · intro t ht hp
      obtain ⟨u, hu, rfl⟩ := Finset.mem_image.mp ht
      intro htR
      have htgtR : u.tgt ∈ get_reachable_states A := reachFrom_closed _ _ hu htR
      have huB : u ∈ (restrictNfa A (get_reachable_states A)).trans :=
        mem_restrict_trans.mpr ⟨hu, htR, htgtR⟩
      have hrevB : (⟨u.tgt, u.symb, u.src⟩ : Trans)
          ∈ transReverse (restrictNfa A (get_reachable_states A)).trans :=
        Finset.mem_image_of_mem _ huB
      exact reachFrom_closed _ _ hrevB (hp htgtR)

theorem restrictNfa_restrictNfa (A : Nfa) (S T : Finset Nat) :
    restrictNfa (restrictNfa A S) T = restrictNfa A (S ∩ T) := by
  apply Nfa.eq_of_parts
  · simp [restrictNfa, Finset.inter_assoc]
  · simp [restrictNfa, Finset.inter_assoc]
  · simp [restrictNfa, Finset.inter_assoc]
  · show ((A.trans.filter _).filter _) = A.trans.filter _
    rw [Finset.filter_filter]
    apply Finset.filter_congr
    intro t _
    simp only [Finset.mem_inter]
    tauto

theorem trim_restrict_reach (A : Nfa) :
    trim (restrictNfa A (get_reachable_states A)) = trim A := by
  unfold trim
  rw [reach_restrict_eq, restrictNfa_restrictNfa]
  congr 1
  rw [← Finset.inter_assoc, Finset.inter_self]
  exact inter_coreach_restrict A

theorem restrict_initial_eq (A : Nfa) :
    ({ restrictNfa A (get_reachable_states A) with
        initialstates := A.initialstates } : Nfa)
      = restrictNfa A (get_reachable_states A) := by
  apply Nfa.eq_of_parts
  · rfl
  · show A.initialstates = A.initialstates ∩ get_reachable_states A
    exact (Finset.inter_eq_left.mpr (initial_subset_reachable A)).symm
  · rfl
  · rfl

theorem segmentationOf_eps_free (A : Nfa) (ε : Nat)
    (h : ∀ t ∈ A.trans, t.symb ≠ ε) :
    segmentationOf A ε
      = ([{ restrictNfa A (get_reachable_states A) with
            initialstates := A.initialstates }], []) := by
  have h1 : nonEpsTrans A ε = A.trans := by
    unfold nonEpsTrans
    exact Finset.filter_true_of_mem h
  show segmentationGo A ε (A.trans.card + 1) A.initialstates = _
  rw [segmentationGo]
  simp only [h1]
  have h2 : A.trans.filter
      (fun t => t.symb = ε ∧ t.src ∈ reachFrom A.trans A.initialstates) = ∅ := by
    rw [Finset.filter_eq_empty_iff]
    intro t ht hc
    exact h t ht hc.1
  simp only [h2, if_true]
  rfl

/-- C7: when segmentation yields exactly one segment, `noodlify` returns
`[[trim(segments[0])]]` if the trimmed segment is non-empty or
`include_empty` is set, and `[]` otherwise; in particular, for an ε-free
input `A` with non-empty `trim A`, `noodlify` returns `[[trim A]]`. -/
theorem claim_single_segment_identity (aut s A : Nfa) (ε : Nat)
    (epsilon_depths : List (List Trans)) (variableLocations : List (List Nat))
    (alphSyms : List Nat) (include_empty useBits : Bool)
    (hfree : ∀ t ∈ A.trans, t.symb ≠ ε)
    (hne : 0 < get_num_of_states (trim A)) :
    (noodlifyCore aut [s] epsilon_depths variableLocations alphSyms
        include_empty useBits).1
      = (if 0 < get_num_of_states (trim s) ∨ include_empty = true
          then [[trim s]] else []) ∧
    (noodlify A ε variableLocations alphSyms include_empty useBits).1
      = [[trim A]] := by
  constructor
  · unfold noodlifyCore
    rw [if_pos (show ([s] : List Nfa).length = 1 from rfl)]
    have hg : trim (([s] : List Nfa).getD 0 default) = trim s := rfl
    rw [hg]
    split
    · rename_i hc
      rw [if_pos hc]
    · rename_i hc
      rw [if_neg hc]
  · unfold noodlify
    rw [segmentationOf_eps_free A ε hfree]
    show (noodlifyCore A
      [({ restrictNfa A (get_reachable_states A) with
          initialstates := A.initialstates } : Nfa)] []
      variableLocations alphSyms include_empty useBits).1 = [[trim A]]
    have hseg : trim (([({ restrictNfa A (get_reachable_states A) with
        initialstates := A.initialstates } : Nfa)] : List Nfa).getD 0 default)
        = trim A := by
      show trim ({ restrictNfa A (get_reachable_states A) with
        initialstates := A.initialstates } : Nfa) = trim A
      rw [restrict_initial_eq, trim_restrict_reach]
    unfold noodlifyCore
    rw [if_pos (show ([({ restrictNfa A (get_reachable_states A) with
        initialstates := A.initialstates } : Nfa)] : List Nfa).length = 1 from rfl)]
    rw [hseg, if_pos (Or.inl hne)]

theorem claim_single_segment_identity_witness :
    (∀ t ∈ nfaA.trans, t.symb ≠ 9) ∧ 0 < get_num_of_states (trim nfaA) ∧
    ((noodlifyCore nfaAut [nfaA] [] [] [] false true).1
        = (if 0 < get_num_of_states (trim nfaA) ∨ false = true
            then [[trim nfaA]] else []) ∧
     (noodlify nfaA 9 [] [] false true).1 = [[trim nfaA]]) :=
  ⟨by decide, by decide,
   claim_single_segment_identity nfaAut nfaA nfaA 9 [] [] [] false true
     (by decide) (by decide)⟩

theorem claim_bit_encoding_amended_witness :
    (3 ≤ 2 ^ 32 ∧ 1 < 2 ^ 32) ∧
    (neededBitsOf 3 = max 1 (Nat.clog 2 3) ∧
     emitSymbolStr true 2 1 0
       = String.intercalate " & " ((List.range 2).map (fun i =>
           (if Nat.testBit 1 i then "" else "!") ++ "a" ++ toString (0 * 2 + i)))) :=
  ⟨⟨by norm_num, by norm_num⟩,
   claim_bit_encoding_amended 3 1 0 2 (by norm_num) (by norm_num)⟩

end Mata
